import Mathlib

/-!
Verification of the tablet metadata manager
(`be/src/storage/tablet_meta_manager.cpp`): a shallow embedding of the
key codecs, the RocksDB-backed record store, and the metadata
operations, together with proofs of the specified properties.

Keys of the underlying store are byte strings, modelled as `List Nat`
with every element below 256.  The store itself is an association list
of (key, value) pairs kept in ascending bytewise (lexicographic) key
order — the order in which RocksDB's default comparator arranges keys
and in which its iterators visit them.

Serialized protobuf payloads (tablet meta, rowset meta, log entries,
delete-vector bitmaps) are external to this file; they are modelled
structurally by the `Val` inductive, with `Val.blob` for payloads whose
contents the metadata layer never inspects.  A stored value parses as a
given message kind exactly when it was serialized as that kind.
-/

namespace TabletMeta

/-! ## Keys and bytewise comparison -/

/-- A key of the underlying key-value store: a byte string. -/
abbrev Key := List Nat

/-- Bytewise lexicographic strict order, as RocksDB's default comparator:
compare byte by byte; a proper initial segment is smaller. -/
def lexLtB : Key → Key → Bool
  | [], [] => false
  | [], _ :: _ => true
  | _ :: _, [] => false
  | a :: as, b :: bs => if a < b then true else if b < a then false else lexLtB as bs

/-- Bytewise comparison, non-strict. -/
def lexLeB (a b : Key) : Bool := !(lexLtB b a)

/-- Byte-string prefix test, as RocksDB's `Slice::starts_with`. -/
def isPfx : Key → Key → Bool
  | [], _ => true
  | _ :: _, [] => false
  | a :: as, b :: bs => a == b && isPfx as bs

/-! ## Big-endian fixed-width integer encoding

`put_fixed64_le(&s, BigEndian::FromHost64(v))` appends the eight bytes of
`v` most-significant first; `put_fixed32_le` likewise with four bytes. -/

/-- Big-endian byte string of width `w` for the value `v % 256^w`. -/
def beBytes : Nat → Nat → List Nat
  | 0, _ => []
  | w + 1, v => (v / 256 ^ w) % 256 :: beBytes w v

/-- Numeric value of a big-endian byte string. -/
def beVal (l : List Nat) : Nat := l.foldl (fun a b => a * 256 + b) 0

/-- Eight-byte big-endian encoding, as written by `put_fixed64_le` of
`BigEndian::FromHost64`. -/
def be64 (v : Nat) : List Nat := beBytes 8 v

/-- Four-byte big-endian encoding, as written by `put_fixed32_le` of
`BigEndian::FromHost32`. -/
def be32 (v : Nat) : List Nat := beBytes 4 v

/-! ## Decimal text encoding (header keys only) -/

/-- Recursion core for decimal printing, structural on a fuel bound (any
fuel at least `n` yields the digits of `n`; structural recursion keeps the
definition computable by kernel reduction). -/
def decDigitsAux : Nat → Nat → List Nat
  | 0, n => [48 + n]
  | fuel + 1, n =>
    if n < 10 then [48 + n] else decDigitsAux fuel (n / 10) ++ [48 + n % 10]

/-- ASCII decimal digits of `n`, most significant first, as printed for a
nonnegative integer by `strings::Substitute`. -/
def decDigits (n : Nat) : List Nat := decDigitsAux n n

/-- Numeric value of an ASCII digit string. -/
def digitsVal (l : List Nat) : Nat := l.foldl (fun a d => a * 10 + (d - 48)) 0

/-- Check that every byte is an ASCII digit. -/
def allDigits (l : List Nat) : Bool := l.all (fun d => 48 ≤ d && d ≤ 57)

/-- Bounded strict decimal parse, modelling gutil `safe_strto64` /
`safe_strto32` (external to this file) on the nonnegative decimal strings
this key scheme produces: fails on an empty string, on any non-digit byte,
and on overflow of the bound. -/
def parseDecimal (bound : Nat) (l : List Nat) : Option Nat :=
  if l ≠ [] ∧ allDigits l = true ∧ digitsVal l ≤ bound then some (digitsVal l) else none

/-- Split at the first `_` byte (0x5f), as the `memchr` call in
`decode_tablet_meta_key`; `none` when no separator occurs. -/
def splitSep : List Nat → Option (List Nat × List Nat)
  | [] => none
  | b :: bs =>
    if b = 95 then some ([], bs)
    else (splitSep bs).map (fun p => (b :: p.1, p.2))

/-! ## The five key namespaces -/

/-- ASCII bytes of the header tag `"tabletmeta_"`. -/
def HEADER_PFX : Key := [116, 97, 98, 108, 101, 116, 109, 101, 116, 97, 95]

/-- ASCII bytes of the meta-log tag `"tlg_"`. -/
def TABLET_META_LOG_PFX : Key := [116, 108, 103, 95]

/-- ASCII bytes of the rowset tag `"trs_"`. -/
def TABLET_META_ROWSET_PFX : Key := [116, 114, 115, 95]

/-- ASCII bytes of the pending-rowset tag `"tpr_"`. -/
def TABLET_META_PENDING_ROWSET_PFX : Key := [116, 112, 114, 95]

/-- ASCII bytes of the delete-vector tag `"dlv_"`. -/
def TABLET_DELVEC_PFX : Key := [100, 108, 118, 95]

/-- `encode_tablet_meta_key`:
`"tabletmeta_" + decimal(tablet_id) + "_" + decimal(schema_hash)`. -/
def encode_tablet_meta_key (tablet_id schema_hash : Nat) : Key :=
  HEADER_PFX ++ decDigits tablet_id ++ [95] ++ decDigits schema_hash

/-- `decode_tablet_meta_key`: rejects keys no longer than
`sizeof(HEADER_PREFIX)` = 12 bytes, strips the 11-byte text tag (the tag
itself is re-checked only by a debug assertion in the source), splits at
the first `_`, and parses the two decimal fields with the int64/int32
overflow bounds of `safe_strto64`/`safe_strto32`. -/
def decode_tablet_meta_key (k : Key) : Option (Nat × Nat) :=
  if k.length ≤ 12 then none
  else
    match splitSep (k.drop 11) with
    | none => none
    | some (a, b) =>
      match parseDecimal 9223372036854775807 a, parseDecimal 2147483647 b with
      | some t, some h => some (t, h)
      | _, _ => none

/-- `encode_meta_log_key`: `"tlg_" + be64(tablet_id) + be64(logid)`. -/
def encode_meta_log_key (tablet_id logid : Nat) : Key :=
  TABLET_META_LOG_PFX ++ be64 tablet_id ++ be64 logid

/-- `decode_meta_log_key`: fixed 20-byte frame, rejects any other length. -/
def decode_meta_log_key (k : Key) : Option (Nat × Nat) :=
  if k.length = 20 then some (beVal ((k.drop 4).take 8), beVal (k.drop 12)) else none

/-- `encode_meta_rowset_key`: `"trs_" + be64(tablet_id) + be32(rowsetid)`. -/
def encode_meta_rowset_key (tablet_id rowsetid : Nat) : Key :=
  TABLET_META_ROWSET_PFX ++ be64 tablet_id ++ be32 rowsetid

/-- `decode_meta_rowset_key`: fixed 16-byte frame, rejects any other length. -/
def decode_meta_rowset_key (k : Key) : Option (Nat × Nat) :=
  if k.length = 16 then some (beVal ((k.drop 4).take 8), beVal (k.drop 12)) else none

/-- `encode_meta_pending_rowset_key`: `"tpr_" + be64(tablet_id) + be64(version)`. -/
def encode_meta_pending_rowset_key (tablet_id version : Nat) : Key :=
  TABLET_META_PENDING_ROWSET_PFX ++ be64 tablet_id ++ be64 version

/-- `decode_meta_pending_rowset_key`: fixed 20-byte frame, rejects any other
length. -/
def decode_meta_pending_rowset_key (k : Key) : Option (Nat × Nat) :=
  if k.length = 20 then some (beVal ((k.drop 4).take 8), beVal (k.drop 12)) else none

/-- Stored big-endian suffix value for a delete-vector version:
`std::numeric_limits<int64_t>::max() - version`, as the uint64 bit pattern
actually written (two's-complement wrap covers the out-of-domain
`version = -1` that `delete_del_vector_range` builds when
`start_version = 0`). -/
def dlvStored (version : Int) : Nat :=
  (((9223372036854775807 : Int) - version) % (18446744073709551616 : Int)).toNat

/-- `encode_del_vector_key`:
`"dlv_" + be64(tablet_id) + be32(segment_id) + be64(MAX_INT64 - version)`,
so that for one segment higher versions sort first. -/
def encode_del_vector_key (tablet_id segment_id : Nat) (version : Int) : Key :=
  TABLET_DELVEC_PFX ++ be64 tablet_id ++ be32 segment_id ++ be64 (dlvStored version)

/-- `decode_del_vector_key` returns `void` in the source and performs no
validation: the 24-byte length is checked only by a debug assertion, and
the three fixed-width fields are read unconditionally.  A read past the end
of a too-short key is modelled by the shorter byte run that is present. -/
def decode_del_vector_key (k : Key) : Nat × Nat × Int :=
  (beVal ((k.drop 4).take 8), beVal ((k.drop 12).take 4),
    (9223372036854775807 : Int) - (beVal ((k.drop 16).take 8) : Nat))

/-- `decode_del_vector_key_version`: reads the trailing eight bytes and
recovers `MAX_INT64 - stored`. -/
def decode_del_vector_key_version (k : Key) : Int :=
  (9223372036854775807 : Int) - (beVal (k.drop (k.length - 8)) : Nat)

/-! ## Domain records

Serialization of these protobuf messages is external (`SerializeAsString`
/ `ParseFromArray`); a value in the store is modelled by the message it
was serialized from, and parsing it as a different message kind fails. -/

/-- Key model of the tablet schema, `KeysType` in `olap_file.pb.h`;
only `PRIMARY_KEYS` is distinguished by this layer. -/
inductive KeysType
  | dupKeys
  | aggKeys
  | uniqueKeys
  | primaryKeys
  deriving DecidableEq, Repr

/-- `EditVersionPB`: a (major, minor) version pair. -/
structure EditVersionPB where
  major : Nat
  minor : Nat
  deriving DecidableEq, Repr

/-- `EditVersionMetaPB`: the edit-version descriptor embedded in a
rowset-commit log entry. -/
structure EditVersionMetaPB where
  version : EditVersionPB
  deriving DecidableEq, Repr

/-- `RowsetMetaPB`: a rowset descriptor; `rowset_seg_id` keys the rowset
namespace, the remaining fields are opaque to this layer. -/
structure RowsetMetaPB where
  rowset_seg_id : Nat
  payload : List Nat
  deriving DecidableEq, Repr

/-- `TabletUpdatesPB`: update-engine state of a versioned header;
only the optional `next_log_id` field is read by this layer. -/
structure TabletUpdatesPB where
  next_log_id : Option Nat
  deriving DecidableEq, Repr

/-- `TabletMetaPB`: a tablet header; this layer reads the schema's
`keys_type` and the optional `updates` message. -/
structure TabletMetaPB where
  keys_type : KeysType
  updates : Option TabletUpdatesPB
  deriving DecidableEq, Repr

/-- `TabletMetaOpType`: tag of one meta-log operation. -/
inductive TabletMetaOpType
  | opRowsetCommit
  | opApply
  deriving DecidableEq, Repr

/-- One operation of a `TabletMetaLogPB`. -/
structure TabletMetaOpPB where
  type : TabletMetaOpType
  commit : Option EditVersionMetaPB
  applyVersion : Option EditVersionPB
  deriving DecidableEq, Repr

/-- `TabletMetaLogPB`: a list of operations. -/
structure TabletMetaLogPB where
  ops : List TabletMetaOpPB
  deriving DecidableEq, Repr

/-- A stored value: the message it was serialized from, or an opaque
byte blob (delete-vector bitmaps, foreign records). -/
inductive Val
  | blob (bytes : List Nat)
  | metaVal (m : TabletMetaPB)
  | logVal (l : TabletMetaLogPB)
  | rowsetVal (r : RowsetMetaPB)
  deriving DecidableEq, Repr

/-- Result taxonomy of the `Status` values this layer produces. -/
inductive Status
  | ok
  | notFound
  | corruption
  | invalidArgument
  | notSupported
  deriving DecidableEq, Repr

/-! ## The record store

Modelled from the spec: the underlying ordered KV store (`KVStore`, not
part of this file) keeps one flat namespace of byte keys in ascending
bytewise order and offers `get`, prefix iteration, bounded range
iteration, and atomic all-or-nothing batch commit of puts, deletes and
half-open `[lower, upper)` range deletes.  A `Store` value lists the live
records in ascending key order; committing a batch is a pure function on
it, which makes every batch atomic by construction. -/

/-- The record store: live (key, value) pairs in ascending key order. -/
abbrev Store := List (Key × Val)

/-- One staged mutation of a RocksDB `WriteBatch`. -/
inductive BatchOp
  | put (k : Key) (v : Val)
  | del (k : Key)
  | delRange (lo hi : Key)
  deriving DecidableEq, Repr

/-- A RocksDB `WriteBatch`: staged mutations in staging order. -/
abbrev Batch := List BatchOp

/-- Insert or replace a binding, keeping ascending key order. -/
def sput : Store → Key → Val → Store
  | [], k, v => [(k, v)]
  | (k1, v1) :: rest, k, v =>
    if lexLtB k k1 then (k, v) :: (k1, v1) :: rest
    else if k = k1 then (k, v) :: rest
    else (k1, v1) :: sput rest k v

/-- Remove every binding of the given key. -/
def eraseKey (k : Key) (S : Store) : Store := S.filter (fun kv => decide (kv.1 ≠ k))

/-- Remove every binding with key in `[lo, hi)` — RocksDB
`WriteBatch::DeleteRange` semantics (upper bound exclusive). -/
def eraseRange (lo hi : Key) (S : Store) : Store :=
  S.filter (fun kv => !(lexLeB lo kv.1 && lexLtB kv.1 hi))

/-- Apply one staged mutation. -/
def applyOp (S : Store) : BatchOp → Store
  | BatchOp.put k v => sput S k v
  | BatchOp.del k => eraseKey k S
  | BatchOp.delRange lo hi => eraseRange lo hi S

/-- Commit a batch: all staged mutations applied in order, atomically. -/
def applyBatch (S : Store) (b : Batch) : Store := b.foldl applyOp S

/-- Point lookup (`KVStore::get`). -/
def sfind : Store → Key → Option Val
  | [], _ => none
  | (k1, v1) :: rest, k => if k1 = k then some v1 else sfind rest k

/-- Number of live bindings of a key. -/
def countKey (S : Store) (k : Key) : Nat :=
  (S.filter (fun kv => decide (kv.1 = k))).length

/-- Entries visited by `KVStore::iterate` with a prefix: the keys starting
with the prefix, in the store's ascending order. -/
def prefixEntries (p : Key) (S : Store) : Store := S.filter (fun kv => isPfx p kv.1)

/-- Modelled from the spec: entries visited by `KVStore::iterate_range`
(not part of this file).  The spec describes the delete-vector lookup as
scanning the segment's whole record range — newest to oldest — and the
scan bounds passed by `get_del_vector` encode exactly the newest and the
oldest representable version, so the range scan visits keys
`lower ≤ k ≤ upper` in ascending order (upper bound inclusive), unlike
the half-open batch `DeleteRange`. -/
def rangeEntries (lo hi : Key) (S : Store) : Store :=
  S.filter (fun kv => lexLeB lo kv.1 && lexLeB kv.1 hi)

/-- Run a visitor over scan entries with early exit: the visitor returns
its new state and whether to continue, as the `bool` result of the
iteration callbacks. -/
def scanFold {σ : Type} (f : σ → Key × Val → σ × Bool) : List (Key × Val) → σ → σ
  | [], s => s
  | e :: es, s =>
    let r := f s e
    if r.2 then scanFold f es r.1 else r.1

/-- Does one staged mutation delete the given key? -/
def opCovers (k : Key) : BatchOp → Bool
  | BatchOp.put _ _ => false
  | BatchOp.del k1 => decide (k1 = k)
  | BatchOp.delRange lo hi => lexLeB lo k && lexLtB k hi

/-- Is the staged mutation a put? -/
def opIsPut : BatchOp → Bool
  | BatchOp.put _ _ => true
  | _ => false

/-- Store invariant: keys strictly ascending in bytewise order (hence
duplicate-free), as RocksDB presents them. -/
def StoreSorted (S : Store) : Prop :=
  List.Pairwise (fun a b : Key × Val => lexLtB a.1 b.1 = true) S

/-- Store invariant: every key is a genuine byte string. -/
def StoreBytes (S : Store) : Prop := ∀ kv ∈ S, ∀ b ∈ kv.1, b < 256

/-! ## TabletMetaManager operations -/

/-- `TabletMetaManager::save(store, tablet_id, schema_hash, meta_pb)`:
rejects a non-primary header that carries update state; otherwise stages
the header put and — when the header carries `updates.next_log_id` — the
range delete of log ids `[0, next_log_id)` into one batch and commits it. -/
def save (S : Store) (tablet_id schema_hash : Nat) (meta_pb : TabletMetaPB) :
    Status × Store :=
  if meta_pb.keys_type ≠ KeysType.primaryKeys ∧ meta_pb.updates.isSome then
    (Status.invalidArgument, S)
  else
    let key := encode_tablet_meta_key tablet_id schema_hash
    let batch : Batch := [BatchOp.put key (Val.metaVal meta_pb)]
    let batch :=
      match meta_pb.updates with
      | some u =>
        match u.next_log_id with
        | some nli =>
          batch ++ [BatchOp.delRange (encode_meta_log_key tablet_id 0)
            (encode_meta_log_key tablet_id nli)]
        | none => batch
      | none => batch
    (Status.ok, applyBatch S batch)

/-- `TabletMetaManager::clear_log`: stage the range delete of the tablet's
log ids `[0, UINT64_MAX)`. -/
def clear_log (tablet_id : Nat) : Batch :=
  [BatchOp.delRange (encode_meta_log_key tablet_id 0)
    (encode_meta_log_key tablet_id 18446744073709551615)]

/-- `TabletMetaManager::clear_rowset`: stage the range delete of the
tablet's rowset ids `[0, UINT32_MAX)`. -/
def clear_rowset (tablet_id : Nat) : Batch :=
  [BatchOp.delRange (encode_meta_rowset_key tablet_id 0)
    (encode_meta_rowset_key tablet_id 4294967295)]

/-- `TabletMetaManager::clear_del_vector`: stage the range delete from
(segment 0, version INT64_MAX) to (segment UINT32_MAX, version INT64_MAX). -/
def clear_del_vector (tablet_id : Nat) : Batch :=
  [BatchOp.delRange (encode_del_vector_key tablet_id 0 9223372036854775807)
    (encode_del_vector_key tablet_id 4294967295 9223372036854775807)]

/-- `TabletMetaManager::clear_pending_rowset`: stage the range delete of
the tablet's pending versions `[0, INT64_MAX)`. -/
def clear_pending_rowset (tablet_id : Nat) : Batch :=
  [BatchOp.delRange (encode_meta_pending_rowset_key tablet_id 0)
    (encode_meta_pending_rowset_key tablet_id 9223372036854775807)]

/-- Scan prefix `"tabletmeta_" + decimal(tablet_id) + "_"` used by
`TabletMetaManager::remove` and `get_json_meta`. -/
def headerScanPfx (tablet_id : Nat) : Key := HEADER_PFX ++ decDigits tablet_id ++ [95]

/-- Scan state of `TabletMetaManager::remove`: the batch under
construction and the `is_primary` flag. -/
structure RemoveState where
  batch : Batch
  is_primary : Bool
  deriving Repr

/-- Header-scan visitor of `TabletMetaManager::remove`: an undecodable key
stops the scan; a key of this tablet is staged for deletion and, when its
value parses, `is_primary` is overwritten from the parsed header; a key of
another tablet stops the scan. -/
def removeVisit (tablet_id : Nat) (st : RemoveState) (kv : Key × Val) :
    RemoveState × Bool :=
  match decode_tablet_meta_key kv.1 with
  | none => (st, false)
  | some (tid, _) =>
    if tid = tablet_id then
      let b := st.batch ++ [BatchOp.del kv.1]
      match kv.2 with
      | Val.metaVal m =>
        ({ batch := b, is_primary := decide (m.keys_type = KeysType.primaryKeys) }, true)
      | _ => ({ batch := b, is_primary := st.is_primary }, true)
    else (st, false)

/-- `TabletMetaManager::remove(store, tablet_id)`: scan the tablet's
header prefix staging header deletions and detecting a primary-key
header; when one was detected, additionally stage the four namespace
range clears; commit everything as one batch.  Failures of the staging
helpers are logged and swallowed in the source; staging cannot fail in
the model. -/
def remove (S : Store) (tablet_id : Nat) : Status × Store :=
  let entries := prefixEntries (headerScanPfx tablet_id) S
  let st := scanFold (removeVisit tablet_id) entries ⟨[], false⟩
  let batch :=
    if st.is_primary then
      st.batch ++ clear_log tablet_id ++ clear_del_vector tablet_id ++
        clear_rowset tablet_id ++ clear_pending_rowset tablet_id
    else st.batch
  (Status.ok, applyBatch S batch)

/-- `TabletMetaManager::delete_pending_rowset` (batched variant): stage the
deletion of the pending-rowset record of one version. -/
def delete_pending_rowset_op (tablet_id version : Nat) : BatchOp :=
  BatchOp.del (encode_meta_pending_rowset_key tablet_id version)

/-- Batch staged by `TabletMetaManager::rowset_commit`: the rowset-commit
log entry carrying the edit-version descriptor, the rowset record, the
conditional delete of `rowset_meta_key`, and the unconditional delete of
the pending-rowset record of the edit version's major component. -/
def rowset_commit_batch (tablet_id logid : Nat) (edit : EditVersionMetaPB)
    (rowset : RowsetMetaPB) (rowset_meta_key : Key) : Batch :=
  [BatchOp.put (encode_meta_log_key tablet_id logid)
      (Val.logVal ⟨[⟨TabletMetaOpType.opRowsetCommit, some edit, none⟩]⟩),
    BatchOp.put (encode_meta_rowset_key tablet_id rowset.rowset_seg_id)
      (Val.rowsetVal rowset)] ++
  (if rowset_meta_key = [] then [] else [BatchOp.del rowset_meta_key]) ++
  [delete_pending_rowset_op tablet_id edit.version.major]

/-- `TabletMetaManager::rowset_commit`: commit the staged batch atomically. -/
def rowset_commit (S : Store) (tablet_id logid : Nat) (edit : EditVersionMetaPB)
    (rowset : RowsetMetaPB) (rowset_meta_key : Key) : Status × Store :=
  (Status.ok,
    applyBatch S (rowset_commit_batch tablet_id logid edit rowset rowset_meta_key))

/-- Scan state of `TabletMetaManager::get_del_vector`: the `first` flag,
the latest version seen, and the record found, if any. -/
structure GdvState where
  first : Bool
  latest : Option Int
  found : Option (Int × Val)
  deriving Repr

/-- Range-scan visitor of `get_del_vector`: remember the first (newest)
version seen; stop at the first record whose version is at most the
queried version, loading it. -/
def gdvVisit (version : Int) (st : GdvState) (kv : Key × Val) : GdvState × Bool :=
  let cv := decode_del_vector_key_version kv.1
  let st1 := if st.first then { st with first := false, latest := some cv } else st
  if version ≥ cv then ({ st1 with found := some (cv, kv.2) }, false) else (st1, true)

/-- `TabletMetaManager::get_del_vector(meta, tablet_id, segment_id,
version, delvec, latest_version)`: scan the segment's delete-vector range
from the newest stored version downward; the result carries the status,
the loaded (version, payload) pair, and the `latest_version` out-parameter
(absent when it was never written). -/
def get_del_vector (S : Store) (tablet_id segment_id : Nat) (version : Int) :
    Status × Option (Int × Val) × Option Int :=
  let lower := encode_del_vector_key tablet_id segment_id 9223372036854775807
  let upper := encode_del_vector_key tablet_id segment_id 0
  let st := scanFold (gdvVisit version) (rangeEntries lower upper S) ⟨true, none, none⟩
  match st.found with
  | some r => (Status.ok, some r, st.latest)
  | none => (Status.notFound, none, st.latest)

/-- `TabletMetaManager::delete_del_vector_range(meta, tablet_id,
segment_id, start_version, end_version)`: no-op on an empty range,
`InvalidArgument` on an inverted one; otherwise one batch with the single
range delete from (segment, end_version - 1) to
(segment, start_version - 1), exploiting the reversed version order. -/
def delete_del_vector_range (S : Store) (tablet_id segment_id : Nat)
    (start_version end_version : Int) : Status × Store :=
  if start_version = end_version then (Status.ok, S)
  else if start_version > end_version then (Status.invalidArgument, S)
  else
    let begin_key := encode_del_vector_key tablet_id segment_id (end_version - 1)
    let end_key := encode_del_vector_key tablet_id segment_id (start_version - 1)
    (Status.ok, applyBatch S [BatchOp.delRange begin_key end_key])

/-- Header-scan visitor of `TabletMetaManager::traverse_headers`: an
undecodable key is logged and skipped — the scan continues; a decoded one
is passed to the callback.  The returned list records the callback's
arguments in visit order. -/
def thVisit (f : Nat → Nat → Val → Bool) (st : List (Nat × Nat × Val))
    (kv : Key × Val) : List (Nat × Nat × Val) × Bool :=
  match decode_tablet_meta_key kv.1 with
  | none => (st, true)
  | some (tid, h) => (st ++ [(tid, h, kv.2)], f tid h kv.2)

/-- `TabletMetaManager::traverse_headers`: prefix scan of every header;
the store scan itself always succeeds in the model. -/
def traverse_headers (S : Store) (f : Nat → Nat → Val → Bool) :
    Status × List (Nat × Nat × Val) :=
  (Status.ok, scanFold (thVisit f) (prefixEntries HEADER_PFX S) [])

/-- Scan state of `TabletMetaManager::traverse_meta_logs`: the pending
result status and the callback arguments in visit order. -/
structure TmlState where
  ret : Status
  visited : List (Nat × TabletMetaLogPB)
  deriving Repr

/-- Range-scan visitor of `traverse_meta_logs`: an undecodable key or an
unparsable value records `Corruption` and stops the scan. -/
def tmlVisit (f : Nat → TabletMetaLogPB → Bool) (st : TmlState) (kv : Key × Val) :
    TmlState × Bool :=
  match decode_meta_log_key kv.1 with
  | none => ({ st with ret := Status.corruption }, false)
  | some (_, logid) =>
    match kv.2 with
    | Val.logVal l => ({ st with visited := st.visited ++ [(logid, l)] }, f logid l)
    | _ => ({ st with ret := Status.corruption }, false)

/-- `TabletMetaManager::traverse_meta_logs`: bounded range scan over the
tablet's log ids. -/
def traverse_meta_logs (S : Store) (tablet_id : Nat)
    (f : Nat → TabletMetaLogPB → Bool) : Status × List (Nat × TabletMetaLogPB) :=
  let st := scanFold (tmlVisit f)
    (rangeEntries (encode_meta_log_key tablet_id 0)
      (encode_meta_log_key tablet_id 18446744073709551615) S) ⟨Status.ok, []⟩
  (st.ret, st.visited)

/-- Prefix-scan visitor of `pending_rowset_iterate`: an undecodable key is
logged and stops the scan — but records no error status; a decoded one is
passed to the callback with its version. -/
def priVisit (f : Nat → Val → Bool) (st : List (Nat × Val)) (kv : Key × Val) :
    List (Nat × Val) × Bool :=
  match decode_meta_pending_rowset_key kv.1 with
  | none => (st, false)
  | some (_, version) => (st ++ [(version, kv.2)], f version kv.2)

/-- `TabletMetaManager::pending_rowset_iterate`: prefix scan of the
tablet's pending-rowset records; the scan status is the store's own
(always OK in the model — a decode failure merely stops early). -/
def pending_rowset_iterate (S : Store) (tablet_id : Nat) (f : Nat → Val → Bool) :
    Status × List (Nat × Val) :=
  (Status.ok,
    scanFold (priVisit f)
      (prefixEntries (TABLET_META_PENDING_ROWSET_PFX ++ be64 tablet_id) S) [])

/-- Prefix-scan visitor of `rowset_iterate`: a value that fails to parse as
a rowset meta hits a `CHECK` — a process abort, modelled as `none`. -/
def riVisit (f : RowsetMetaPB → Bool) (st : Option (List RowsetMetaPB))
    (kv : Key × Val) : Option (List RowsetMetaPB) × Bool :=
  match st with
  | none => (none, false)
  | some l =>
    match kv.2 with
    | Val.rowsetVal r => (some (l ++ [r]), f r)
    | _ => (none, false)

/-- `TabletMetaManager::rowset_iterate`: prefix scan of the tablet's
rowset records; `none` models the `CHECK`-abort on a corrupted value,
otherwise the rowset metas passed to the callback, in visit order. -/
def rowset_iterate (S : Store) (tablet_id : Nat) (f : RowsetMetaPB → Bool) :
    Option (List RowsetMetaPB) :=
  scanFold (riVisit f) (prefixEntries (TABLET_META_ROWSET_PFX ++ be64 tablet_id) S)
    (some [])

/-! ## Concrete sample data for witnesses and counterexamples -/

/-- A primary-key header message. -/
def primaryMeta : TabletMetaPB := ⟨KeysType.primaryKeys, some ⟨some 0⟩⟩

/-- Store of delete-vector records of one segment, newest version first
(the order in which the reversed key layout arranges them). -/
def delvecStore (tablet_id segment_id : Nat) (records : List (Int × Val)) : Store :=
  records.map (fun p => (encode_del_vector_key tablet_id segment_id p.1, p.2))

/-- Sample store for claim C1's witness: segment 1 of tablet 1 holds
delete vectors at versions 10, 7 and 3. -/
def gdvSampleStore : Store :=
  delvecStore 1 1 [(10, Val.blob [10]), (7, Val.blob [7]), (3, Val.blob [3])]

/-- Sample store for claim C3's counterexample: a primary-key tablet 1
with one header and one log entry at the maximal log id `UINT64_MAX`. -/
def removeEdgeStore : Store :=
  [(encode_tablet_meta_key 1 2, Val.metaVal primaryMeta),
    (encode_meta_log_key 1 18446744073709551615, Val.blob [1])]

/-- Sample store for claim C8's counterexample: an undecodable 12-byte
header key (`"tabletmeta_0"`) followed by a decodable header. -/
def badHeaderStore : Store :=
  [(HEADER_PFX ++ [48], Val.blob [7]),
    (encode_tablet_meta_key 1 2, Val.metaVal primaryMeta)]

/-- The schema key type a stored value parses to: `some` for a value
serialized as a header message, `none` when header parsing fails. -/
def valKeysType : Val → Option KeysType
  | Val.metaVal m => some m.keys_type
  | _ => none

/-- The key decodes as a header key of the given tablet. -/
@[reducible] def DecodesToTablet (tablet_id : Nat) (k : Key) : Prop :=
  (decode_tablet_meta_key k).map Prod.fst = some tablet_id

/-- The rowset meta a stored value parses to (`RowsetMeta::init`):
`some` for a value serialized as a rowset meta, `none` otherwise. -/
def valRowset : Val → Option RowsetMetaPB
  | Val.rowsetVal r => some r
  | _ => none

/-! # Theorems -/

/-! ## Lexicographic order -/

theorem lexLtB_irrefl (l : Key) : lexLtB l l = false := by
  induction l with
  | nil => rfl
  | cons a as ih => simp [lexLtB, ih]

theorem lexLtB_asymm {a b : Key} (h : lexLtB a b = true) : lexLtB b a = false := by
  induction a generalizing b with
  | nil =>
    cases b with
    | nil => simpa [lexLtB] using h
    | cons y ys => simp [lexLtB]
  | cons x xs ih =>
    cases b with
    | nil => simpa [lexLtB] using h
    | cons y ys =>
      by_cases hxy : x < y
      · simp [lexLtB, hxy, Nat.lt_asymm hxy]
      · by_cases hyx : y < x
        · simp [lexLtB, hxy, hyx] at h
        · have hxy' : x = y := by omega
          subst hxy'
          simp [lexLtB, Nat.lt_irrefl] at h ⊢
          exact ih h

theorem lexLtB_trans {a b c : Key} (h1 : lexLtB a b = true) (h2 : lexLtB b c = true) :
    lexLtB a c = true := by
  induction a generalizing b c with
  | nil =>
    cases c with
    | nil =>
      cases b with
      | nil => simpa [lexLtB] using h1
      | cons y ys => simpa [lexLtB] using h2
    | cons z zs => simp [lexLtB]
  | cons x xs ih =>
    cases b with
    | nil => simp [lexLtB] at h1
    | cons y ys =>
      cases c with
      | nil => simp [lexLtB] at h2
      | cons z zs =>
        by_cases hxy : x < y <;> by_cases hyz : y < z
        · have hxz : x < z := Nat.lt_trans hxy hyz
          simp [lexLtB, hxz]
        · by_cases hzy : z < y
          · simp [lexLtB, hyz, hzy] at h2
          · have : y = z := by omega
            subst this
            simp [lexLtB, hxy]
        · by_cases hyx : y < x
          · simp [lexLtB, hxy, hyx] at h1
          · have : x = y := by omega
            subst this
            simp [lexLtB, hyz]
        · by_cases hyx : y < x
          · simp [lexLtB, hxy, hyx] at h1
          · have hxy' : x = y := by omega
            subst hxy'
            by_cases hzx : z < x
            · simp [lexLtB, hyz, hzx] at h2
            · have : x = z := by omega
              subst this
              simp [lexLtB, Nat.lt_irrefl] at h1 h2 ⊢
              exact ih h1 h2

theorem lexLtB_connex {a b : Key} (h : a ≠ b) :
    lexLtB a b = true ∨ lexLtB b a = true := by
  induction a generalizing b with
  | nil =>
    cases b with
    | nil => exact absurd rfl h
    | cons y ys => left; simp [lexLtB]
  | cons x xs ih =>
    cases b with
    | nil => right; simp [lexLtB]
    | cons y ys =>
      by_cases hxy : x < y
      · left; simp [lexLtB, hxy]
      · by_cases hyx : y < x
        · right; simp [lexLtB, hyx]
        · have hxy' : x = y := by omega
          subst hxy'
          have hne : xs ≠ ys := by
            intro hc; exact h (by rw [hc])
          rcases ih hne with h' | h'
          · left; simp [lexLtB, Nat.lt_irrefl, h']
          · right; simp [lexLtB, Nat.lt_irrefl, h']

/-- Comparison of two keys that share a common suffix-extension structure:
with heads of equal length, the comparison is decided by the heads unless
they are equal, in which case it passes to the tails. -/
theorem lexLtB_append_iff {a b : Key} (x y : Key) (h : a.length = b.length) :
    lexLtB (a ++ x) (b ++ y) = true ↔
      lexLtB a b = true ∨ (a = b ∧ lexLtB x y = true) := by
  induction a generalizing b with
  | nil =>
    cases b with
    | nil => simp [lexLtB]
    | cons y' ys => simp at h
  | cons p ps ih =>
    cases b with
    | nil => simp at h
    | cons q qs =>
      simp only [List.length_cons, Nat.succ_inj] at h
      by_cases hpq : p < q
      · simp [lexLtB, hpq, List.cons_append]
      · by_cases hqp : q < p
        · simp [lexLtB, hpq, hqp, List.cons_append]
          intro hc
          omega
        · have : p = q := by omega
          subst this
          simp only [List.cons_append, lexLtB, if_neg (Nat.lt_irrefl p), List.append_eq]
          rw [ih h]
          simp

theorem lexLtB_append_same {p a b : Key} :
    lexLtB (p ++ a) (p ++ b) = lexLtB a b := by
  induction p with
  | nil => rfl
  | cons x xs ih => simp [lexLtB, List.cons_append, ih]

/-- A strict prefix of a key is bytewise smaller than the key. -/
theorem lexLtB_append_right (a : Key) {x : Key} (hx : x ≠ []) :
    lexLtB a (a ++ x) = true := by
  induction a with
  | nil =>
    cases x with
    | nil => exact absurd rfl hx
    | cons y ys => simp [lexLtB]
  | cons p ps ih => simp [lexLtB, List.cons_append, ih]

/-! ## Big-endian encoding -/

@[simp] theorem beBytes_length (w v : Nat) : (beBytes w v).length = w := by
  induction w generalizing v with
  | zero => rfl
  | succ w ih => simp [beBytes, ih]

theorem beBytes_lt_256 (w v : Nat) : ∀ b ∈ beBytes w v, b < 256 := by
  induction w generalizing v with
  | zero => intro b hb; simp [beBytes] at hb
  | succ w ih =>
    intro b hb
    simp only [beBytes, List.mem_cons] at hb
    rcases hb with rfl | hb
    · exact Nat.mod_lt _ (by omega)
    · exact ih v b hb

theorem beBytes_mod (w v : Nat) : beBytes w (v % 256 ^ w) = beBytes w v := by
  induction w generalizing v with
  | zero => rfl
  | succ w ih =>
    simp only [beBytes, List.cons.injEq]
    refine ⟨?_, ?_⟩
    · have h1 : v % 256 ^ (w + 1) / 256 ^ w = v / 256 ^ w % 256 := by
        rw [pow_succ]
        exact (Nat.div_mod_eq_mod_mul_div v (256 ^ w) 256).symm
      rw [h1, Nat.mod_mod_of_dvd _ (dvd_refl 256)]
    · have h2 : v % 256 ^ (w + 1) % 256 ^ w = v % 256 ^ w := by
        exact Nat.mod_mod_of_dvd v (pow_dvd_pow 256 (Nat.le_succ w))
      calc beBytes w (v % 256 ^ (w + 1))
          = beBytes w (v % 256 ^ (w + 1) % 256 ^ w) := (ih _).symm
        _ = beBytes w (v % 256 ^ w) := by rw [h2]
        _ = beBytes w v := ih v

theorem beVal_foldl (l : List Nat) (a : Nat) :
    List.foldl (fun x b => x * 256 + b) a l = a * 256 ^ l.length + beVal l := by
  induction l generalizing a with
  | nil => simp [beVal]
  | cons b bs ih =>
    have hb : beVal (b :: bs) = b * 256 ^ bs.length + beVal bs := by
      simp only [beVal, List.foldl_cons]
      simpa using ih b
    simp only [List.foldl_cons, List.length_cons]
    rw [ih (a * 256 + b), hb]
    ring

theorem beVal_lt (l : List Nat) (h : ∀ b ∈ l, b < 256) : beVal l < 256 ^ l.length := by
  induction l with
  | nil => simp [beVal]
  | cons b bs ih =>
    have hb : beVal (b :: bs) = b * 256 ^ bs.length + beVal bs := by
      simp only [beVal, List.foldl_cons]
      simpa using beVal_foldl bs b
    have h1 : b < 256 := h b (List.mem_cons_self b bs)
    have h2 : beVal bs < 256 ^ bs.length := ih (fun x hx => h x (List.mem_cons_of_mem b hx))
    rw [hb]
    calc b * 256 ^ bs.length + beVal bs < b * 256 ^ bs.length + 256 ^ bs.length := by
          omega
      _ = (b + 1) * 256 ^ bs.length := by ring
      _ ≤ 256 * 256 ^ bs.length := Nat.mul_le_mul_right _ h1
      _ = 256 ^ (bs.length + 1) := by ring

theorem beVal_beBytes (w v : Nat) : beVal (beBytes w v) = v % 256 ^ w := by
  induction w generalizing v with
  | zero => simp [beBytes, beVal, Nat.mod_one]
  | succ w ih =>
    simp only [beBytes, beVal, List.foldl_cons]
    have := beVal_foldl (beBytes w v) (0 * 256 + v / 256 ^ w % 256)
    rw [this, beBytes_length, ih v]
    have hm : v % 256 ^ (w + 1) = v % 256 ^ w + 256 ^ w * (v / 256 ^ w % 256) := by
      rw [pow_succ, Nat.mod_mul]
    rw [hm]
    ring

theorem beBytes_beVal (l : List Nat) (h : ∀ b ∈ l, b < 256) :
    beBytes l.length (beVal l) = l := by
  induction l with
  | nil => rfl
  | cons b bs ih =>
    have hb : beVal (b :: bs) = b * 256 ^ bs.length + beVal bs := by
      simp only [beVal, List.foldl_cons]
      simpa using beVal_foldl bs b
    have h1 : b < 256 := h b (List.mem_cons_self b bs)
    have h2 : beVal bs < 256 ^ bs.length := beVal_lt bs
      (fun x hx => h x (List.mem_cons_of_mem b hx))
    simp only [List.length_cons, beBytes, List.cons.injEq]
    refine ⟨?_, ?_⟩
    · rw [hb, Nat.add_comm, Nat.mul_comm]
      rw [Nat.add_mul_div_left _ _ (by positivity : (0:ℕ) < 256 ^ bs.length)]
      rw [Nat.div_eq_of_lt h2, Nat.zero_add, Nat.mod_eq_of_lt h1]
    · rw [← beBytes_mod, hb]
      have : (b * 256 ^ bs.length + beVal bs) % 256 ^ bs.length = beVal bs := by
        rw [Nat.add_mod, Nat.mul_mod_left]
        simp [Nat.mod_eq_of_lt h2]
      rw [this]
      exact ih (fun x hx => h x (List.mem_cons_of_mem b hx))

theorem beBytes_lt_iff {w v1 v2 : Nat} (h1 : v1 < 256 ^ w) (h2 : v2 < 256 ^ w) :
    lexLtB (beBytes w v1) (beBytes w v2) = true ↔ v1 < v2 := by
  induction w generalizing v1 v2 with
  | zero =>
    simp only [pow_zero, Nat.lt_one_iff] at h1 h2
    subst h1; subst h2
    simp [beBytes, lexLtB]
  | succ w ih =>
    have hq1 : v1 / 256 ^ w < 256 := Nat.div_lt_of_lt_mul (by rw [← pow_succ]; exact h1)
    have hq2 : v2 / 256 ^ w < 256 := Nat.div_lt_of_lt_mul (by rw [← pow_succ]; exact h2)
    simp only [beBytes, Nat.mod_eq_of_lt hq1, Nat.mod_eq_of_lt hq2, lexLtB]
    by_cases hlt : v1 / 256 ^ w < v2 / 256 ^ w
    · have hv : v1 < v2 := by
        by_contra hc
        push_neg at hc
        exact absurd (Nat.div_le_div_right hc : v2 / 256 ^ w ≤ v1 / 256 ^ w)
          (Nat.not_le.2 hlt)
      simp [hlt, hv]
    · by_cases hgt : v2 / 256 ^ w < v1 / 256 ^ w
      · have hv : ¬ v1 < v2 := by
          intro hc
          exact absurd
            (Nat.div_le_div_right (Nat.le_of_lt hc) : v1 / 256 ^ w ≤ v2 / 256 ^ w)
            (Nat.not_le.2 hgt)
        simp [hlt, hgt, hv]
      · have hd : v1 / 256 ^ w = v2 / 256 ^ w := by omega
        rw [if_neg hlt, if_neg hgt]
        rw [← beBytes_mod w v1, ← beBytes_mod w v2]
        rw [ih (Nat.mod_lt _ (by positivity)) (Nat.mod_lt _ (by positivity))]
        have e1 : 256 ^ w * (v2 / 256 ^ w) + v1 % 256 ^ w = v1 := by
          rw [← hd]; exact Nat.div_add_mod v1 (256 ^ w)
        have e2 : 256 ^ w * (v2 / 256 ^ w) + v2 % 256 ^ w = v2 :=
          Nat.div_add_mod v2 (256 ^ w)
        omega

theorem beBytes_inj {w v1 v2 : Nat} (h1 : v1 < 256 ^ w) (h2 : v2 < 256 ^ w)
    (h : beBytes w v1 = beBytes w v2) : v1 = v2 := by
  by_contra hne
  rcases Nat.lt_or_ge v1 v2 with hlt | hge
  · have := (beBytes_lt_iff h1 h2).2 hlt
    rw [h] at this
    rw [lexLtB_irrefl] at this
    exact Bool.false_ne_true this
  · have hlt : v2 < v1 := by omega
    have := (beBytes_lt_iff h2 h1).2 hlt
    rw [h] at this
    rw [lexLtB_irrefl] at this
    exact Bool.false_ne_true this

/-! ## Fixed-width field lemmas -/

theorem be64_length (v : Nat) : (be64 v).length = 8 := beBytes_length 8 v

theorem be32_length (v : Nat) : (be32 v).length = 4 := beBytes_length 4 v

theorem be64_bytes (v : Nat) : ∀ b ∈ be64 v, b < 256 := beBytes_lt_256 8 v

theorem be32_bytes (v : Nat) : ∀ b ∈ be32 v, b < 256 := beBytes_lt_256 4 v

theorem pow_256_8 : (256 : Nat) ^ 8 = 2 ^ 64 := by norm_num

theorem pow_256_4 : (256 : Nat) ^ 4 = 2 ^ 32 := by norm_num

theorem beVal_be64 {v : Nat} (h : v < 2 ^ 64) : beVal (be64 v) = v := by
  rw [be64, beVal_beBytes, pow_256_8, Nat.mod_eq_of_lt h]

theorem beVal_be32 {v : Nat} (h : v < 2 ^ 32) : beVal (be32 v) = v := by
  rw [be32, beVal_beBytes, pow_256_4, Nat.mod_eq_of_lt h]

theorem be64_lt_iff {v1 v2 : Nat} (h1 : v1 < 2 ^ 64) (h2 : v2 < 2 ^ 64) :
    (lexLtB (be64 v1) (be64 v2) = true ↔ v1 < v2) :=
  beBytes_lt_iff (pow_256_8 ▸ h1) (pow_256_8 ▸ h2)

theorem be32_lt_iff {v1 v2 : Nat} (h1 : v1 < 2 ^ 32) (h2 : v2 < 2 ^ 32) :
    (lexLtB (be32 v1) (be32 v2) = true ↔ v1 < v2) :=
  beBytes_lt_iff (pow_256_4 ▸ h1) (pow_256_4 ▸ h2)

theorem be64_inj {v1 v2 : Nat} (h1 : v1 < 2 ^ 64) (h2 : v2 < 2 ^ 64)
    (h : be64 v1 = be64 v2) : v1 = v2 :=
  beBytes_inj (pow_256_8 ▸ h1) (pow_256_8 ▸ h2) h

theorem be32_inj {v1 v2 : Nat} (h1 : v1 < 2 ^ 32) (h2 : v2 < 2 ^ 32)
    (h : be32 v1 = be32 v2) : v1 = v2 :=
  beBytes_inj (pow_256_4 ▸ h1) (pow_256_4 ▸ h2) h

theorem be64_beVal {l : List Nat} (hl : l.length = 8) (hb : ∀ b ∈ l, b < 256) :
    be64 (beVal l) = l := by
  rw [be64, ← hl]
  exact beBytes_beVal l hb

/-! ## Decimal text lemmas -/

theorem decDigitsAux_congr : ∀ n : Nat, ∀ f1, n ≤ f1 → ∀ f2, n ≤ f2 →
    decDigitsAux f1 n = decDigitsAux f2 n := by
  intro n
  induction n using Nat.strong_induction_on with
  | _ n ih =>
    intro f1 h1 f2 h2
    match f1, f2 with
    | 0, 0 => rfl
    | 0, f2 + 1 =>
      have : n = 0 := by omega
      subst this
      rw [decDigitsAux, decDigitsAux, if_pos (by omega)]
    | f1 + 1, 0 =>
      have : n = 0 := by omega
      subst this
      rw [decDigitsAux, decDigitsAux, if_pos (by omega)]
    | f1 + 1, f2 + 1 =>
      by_cases h : n < 10
      · rw [decDigitsAux, decDigitsAux, if_pos h, if_pos h]
      · have hdiv : n / 10 < n := Nat.div_lt_self (by omega) (by omega)
        rw [decDigitsAux, decDigitsAux, if_neg h, if_neg h]
        rw [ih (n / 10) hdiv f1 (by omega) f2 (by omega)]

/-- The recursion the source performs, recovered from the fuel version. -/
theorem decDigits_eq_rec (n : Nat) :
    decDigits n = if n < 10 then [48 + n] else decDigits (n / 10) ++ [48 + n % 10] := by
  by_cases h : n < 10
  · rw [if_pos h, decDigits]
    match n, h with
    | 0, _ => rfl
    | m + 1, h => rw [decDigitsAux, if_pos h]
  · rw [if_neg h, decDigits, decDigits]
    have hdiv : n / 10 < n := Nat.div_lt_self (by omega) (by omega)
    match n, h, hdiv with
    | m + 1, h, hdiv =>
      rw [decDigitsAux, if_neg h]
      rw [decDigitsAux_congr ((m + 1) / 10) m (by omega) ((m + 1) / 10) (by omega)]

theorem decDigits_ne_nil (n : Nat) : decDigits n ≠ [] := by
  rw [decDigits_eq_rec]
  by_cases h : n < 10
  · rw [if_pos h]; simp
  · rw [if_neg h]; simp

theorem decDigits_digits (n : Nat) : ∀ b ∈ decDigits n, 48 ≤ b ∧ b ≤ 57 := by
  induction n using Nat.strong_induction_on with
  | _ n ih =>
    rw [decDigits_eq_rec]
    by_cases h : n < 10
    · rw [if_pos h]
      intro b hb
      simp only [List.mem_singleton] at hb
      omega
    · rw [if_neg h]
      intro b hb
      rcases List.mem_append.1 hb with hb1 | hb2
      · exact ih (n / 10) (Nat.div_lt_self (by omega) (by omega)) b hb1
      · simp only [List.mem_singleton] at hb2
        have := Nat.mod_lt n (y := 10) (by omega)
        omega

theorem digitsVal_append_digit (l : List Nat) (d : Nat) :
    digitsVal (l ++ [d]) = digitsVal l * 10 + (d - 48) := by
  simp [digitsVal, List.foldl_append]

theorem digitsVal_decDigits (n : Nat) : digitsVal (decDigits n) = n := by
  induction n using Nat.strong_induction_on with
  | _ n ih =>
    rw [decDigits_eq_rec]
    by_cases h : n < 10
    · rw [if_pos h]
      simp only [digitsVal, List.foldl_cons, List.foldl_nil]
      omega
    · rw [if_neg h]
      rw [digitsVal_append_digit, ih (n / 10) (Nat.div_lt_self (by omega) (by omega))]
      have := Nat.mod_lt n (y := 10) (by omega)
      have := Nat.div_add_mod n 10
      omega

theorem allDigits_decDigits (n : Nat) : allDigits (decDigits n) = true := by
  simp only [allDigits, List.all_eq_true]
  intro b hb
  have := decDigits_digits n b hb
  simp only [Bool.and_eq_true, decide_eq_true_eq]
  omega

theorem splitSep_append {a : List Nat} (ha : ∀ b ∈ a, b ≠ 95) (c : List Nat) :
    splitSep (a ++ 95 :: c) = some (a, c) := by
  induction a with
  | nil => simp [splitSep]
  | cons b bs ih =>
    have hb : b ≠ 95 := ha b (List.mem_cons_self b bs)
    simp only [List.cons_append, splitSep, if_neg hb, List.append_eq]
    rw [ih (fun x hx => ha x (List.mem_cons_of_mem b hx))]
    rfl

theorem parseDecimal_decDigits {bound n : Nat} (h : n ≤ bound) :
    parseDecimal bound (decDigits n) = some n := by
  rw [parseDecimal, if_pos, digitsVal_decDigits]
  refine ⟨decDigits_ne_nil n, allDigits_decDigits n, ?_⟩
  rw [digitsVal_decDigits]
  exact h

/-! ## List block extraction -/

theorem take_append_len {l1 l2 : List Nat} {n : Nat} (h : l1.length = n) :
    (l1 ++ l2).take n = l1 := by
  subst h; exact List.take_left l1 l2

theorem drop_append_len {l1 l2 : List Nat} {n : Nat} (h : l1.length = n) :
    (l1 ++ l2).drop n = l2 := by
  subst h; exact List.drop_left l1 l2

/-! ## Codec round trips -/

theorem encode_meta_log_key_length (t l : Nat) :
    (encode_meta_log_key t l).length = 20 := by
  simp [encode_meta_log_key, TABLET_META_LOG_PFX, be64_length]

theorem decode_encode_meta_log_key {t l : Nat} (ht : t < 2 ^ 64) (hl : l < 2 ^ 64) :
    decode_meta_log_key (encode_meta_log_key t l) = some (t, l) := by
  rw [decode_meta_log_key, if_pos (encode_meta_log_key_length t l)]
  rw [encode_meta_log_key]
  have h4 : (TABLET_META_LOG_PFX ++ (be64 t ++ be64 l)).drop 4 = be64 t ++ be64 l :=
    drop_append_len (by rfl)
  have h12 : (TABLET_META_LOG_PFX ++ (be64 t ++ be64 l)).drop 12 = be64 l := by
    rw [← List.append_assoc]
    exact drop_append_len (by simp [TABLET_META_LOG_PFX, be64_length])
  rw [List.append_assoc, h4, h12, take_append_len (be64_length t),
    beVal_be64 ht, beVal_be64 hl]

theorem encode_meta_rowset_key_length (t r : Nat) :
    (encode_meta_rowset_key t r).length = 16 := by
  simp [encode_meta_rowset_key, TABLET_META_ROWSET_PFX, be64_length, be32_length]

theorem decode_encode_meta_rowset_key {t r : Nat} (ht : t < 2 ^ 64) (hr : r < 2 ^ 32) :
    decode_meta_rowset_key (encode_meta_rowset_key t r) = some (t, r) := by
  rw [decode_meta_rowset_key, if_pos (encode_meta_rowset_key_length t r)]
  rw [encode_meta_rowset_key]
  have h4 : (TABLET_META_ROWSET_PFX ++ (be64 t ++ be32 r)).drop 4 = be64 t ++ be32 r :=
    drop_append_len (by rfl)
  have h12 : (TABLET_META_ROWSET_PFX ++ (be64 t ++ be32 r)).drop 12 = be32 r := by
    rw [← List.append_assoc]
    exact drop_append_len (by simp [TABLET_META_ROWSET_PFX, be64_length])
  rw [List.append_assoc, h4, h12, take_append_len (be64_length t),
    beVal_be64 ht, beVal_be32 hr]

theorem encode_meta_pending_rowset_key_length (t v : Nat) :
    (encode_meta_pending_rowset_key t v).length = 20 := by
  simp [encode_meta_pending_rowset_key, TABLET_META_PENDING_ROWSET_PFX, be64_length]

theorem decode_encode_meta_pending_rowset_key {t v : Nat} (ht : t < 2 ^ 64)
    (hv : v < 2 ^ 64) :
    decode_meta_pending_rowset_key (encode_meta_pending_rowset_key t v) = some (t, v) := by
  rw [decode_meta_pending_rowset_key, if_pos (encode_meta_pending_rowset_key_length t v)]
  rw [encode_meta_pending_rowset_key]
  have h4 : (TABLET_META_PENDING_ROWSET_PFX ++ (be64 t ++ be64 v)).drop 4 =
      be64 t ++ be64 v := drop_append_len (by rfl)
  have h12 : (TABLET_META_PENDING_ROWSET_PFX ++ (be64 t ++ be64 v)).drop 12 = be64 v := by
    rw [← List.append_assoc]
    exact drop_append_len (by simp [TABLET_META_PENDING_ROWSET_PFX, be64_length])
  rw [List.append_assoc, h4, h12, take_append_len (be64_length t),
    beVal_be64 ht, beVal_be64 hv]

theorem decode_encode_tablet_meta_key {t h : Nat} (ht : t ≤ 9223372036854775807)
    (hh : h ≤ 2147483647) :
    decode_tablet_meta_key (encode_tablet_meta_key t h) = some (t, h) := by
  rw [decode_tablet_meta_key, encode_tablet_meta_key]
  have hlen : (HEADER_PFX ++ decDigits t ++ [95] ++ decDigits h).length =
      11 + (decDigits t).length + 1 + (decDigits h).length := by
    simp [HEADER_PFX]
    omega
  have ht1 : 1 ≤ (decDigits t).length :=
    List.length_pos.2 (decDigits_ne_nil t)
  have hh1 : 1 ≤ (decDigits h).length :=
    List.length_pos.2 (decDigits_ne_nil h)
  rw [if_neg (by omega)]
  have hdrop : (HEADER_PFX ++ decDigits t ++ [95] ++ decDigits h).drop 11 =
      decDigits t ++ 95 :: decDigits h := by
    rw [List.append_assoc, List.append_assoc]
    rw [drop_append_len (by simp [HEADER_PFX])]
    simp
  rw [hdrop, splitSep_append (fun b hb => by have := decDigits_digits t b hb; omega)]
  simp only [parseDecimal_decDigits ht, parseDecimal_decDigits hh]

theorem dlvStored_cast {v : Int} (h1 : -1 ≤ v) (h2 : v ≤ 9223372036854775807) :
    (dlvStored v : Int) = 9223372036854775807 - v := by
  rw [dlvStored]
  have hnn : (0 : Int) ≤ 9223372036854775807 - v := by omega
  have hlt : 9223372036854775807 - v < 18446744073709551616 := by omega
  rw [Int.emod_eq_of_lt hnn hlt]
  exact Int.toNat_of_nonneg hnn

theorem dlvStored_lt {v : Int} (h1 : -1 ≤ v) (h2 : v ≤ 9223372036854775807) :
    dlvStored v < 2 ^ 64 := by
  have := dlvStored_cast h1 h2
  have : (dlvStored v : Int) < 2 ^ 64 := by rw [this]; omega
  exact_mod_cast this

theorem encode_del_vector_key_length (t s : Nat) (v : Int) :
    (encode_del_vector_key t s v).length = 24 := by
  simp [encode_del_vector_key, TABLET_DELVEC_PFX, be64_length, be32_length]

theorem decode_encode_del_vector_key {t s : Nat} {v : Int} (ht : t < 2 ^ 64)
    (hs : s < 2 ^ 32) (h1 : 0 ≤ v) (h2 : v ≤ 9223372036854775807) :
    decode_del_vector_key (encode_del_vector_key t s v) = (t, s, v) := by
  rw [decode_del_vector_key, encode_del_vector_key]
  have h4 : (TABLET_DELVEC_PFX ++ (be64 t ++ (be32 s ++ be64 (dlvStored v)))).drop 4 =
      be64 t ++ (be32 s ++ be64 (dlvStored v)) := drop_append_len (by rfl)
  have h12 : (TABLET_DELVEC_PFX ++ (be64 t ++ (be32 s ++ be64 (dlvStored v)))).drop 12 =
      be32 s ++ be64 (dlvStored v) := by
    rw [← List.append_assoc]
    exact drop_append_len (by simp [TABLET_DELVEC_PFX, be64_length])
  have h16 : (TABLET_DELVEC_PFX ++ (be64 t ++ (be32 s ++ be64 (dlvStored v)))).drop 16 =
      be64 (dlvStored v) := by
    rw [← List.append_assoc, ← List.append_assoc]
    exact drop_append_len (by simp [TABLET_DELVEC_PFX, be64_length, be32_length])
  rw [List.append_assoc, List.append_assoc, h4, h12, h16]
  rw [take_append_len (be64_length t), take_append_len (be32_length s)]
  rw [List.take_of_length_le (le_of_eq (be64_length (dlvStored v)))]
  rw [beVal_be64 ht, beVal_be32 hs, beVal_be64 (dlvStored_lt (by omega) h2)]
  rw [Prod.mk.injEq, Prod.mk.injEq]
  refine ⟨rfl, rfl, ?_⟩
  rw [dlvStored_cast (by omega) h2]
  omega

theorem decode_del_vector_key_version_encode {t s : Nat} {v : Int} (h1 : -1 ≤ v)
    (h2 : v ≤ 9223372036854775807) :
    decode_del_vector_key_version (encode_del_vector_key t s v) = v := by
  rw [decode_del_vector_key_version, encode_del_vector_key_length]
  rw [encode_del_vector_key]
  have h16 : (TABLET_DELVEC_PFX ++ (be64 t ++ (be32 s ++ be64 (dlvStored v)))).drop (24 - 8) =
      be64 (dlvStored v) := by
    rw [← List.append_assoc, ← List.append_assoc]
    exact drop_append_len (by simp [TABLET_DELVEC_PFX, be64_length, be32_length])
  rw [List.append_assoc, List.append_assoc, h16]
  rw [beVal_be64 (dlvStored_lt h1 h2), dlvStored_cast h1 h2]
  omega

/-! ## Claim C7 -/

/-- Claim C7: for a fixed tablet and segment and valid versions
`v1 < v2`, the encoded delete-vector key of `v1` is strictly greater in
bytewise order than that of `v2` — higher versions sort first, via the
`MAX_INT64 - version` suffix. -/
theorem delvec_keys_reverse_version_order (tablet_id segment_id : Nat) {v1 v2 : Int}
    (h0 : 0 ≤ v1) (h12 : v1 < v2) (h2 : v2 ≤ 9223372036854775807) :
    lexLtB (encode_del_vector_key tablet_id segment_id v2)
      (encode_del_vector_key tablet_id segment_id v1) = true := by
  rw [encode_del_vector_key, encode_del_vector_key, lexLtB_append_same]
  have hc1 : (dlvStored v1 : Int) = 9223372036854775807 - v1 :=
    dlvStored_cast (by omega) (by omega)
  have hc2 : (dlvStored v2 : Int) = 9223372036854775807 - v2 :=
    dlvStored_cast (by omega) h2
  have hlt : dlvStored v2 < dlvStored v1 := by
    have : (dlvStored v2 : Int) < (dlvStored v1 : Int) := by
      rw [hc1, hc2]; omega
    exact_mod_cast this
  exact (be64_lt_iff (dlvStored_lt (by omega) h2) (dlvStored_lt (by omega) (by omega))).2 hlt

/-- Witness for claim C7 at tablet 1, segment 2, versions 3 < 4: the key
of version 4 sorts before the key of version 3. -/
theorem delvec_keys_reverse_version_order_witness :
    lexLtB (encode_del_vector_key 1 2 4) (encode_del_vector_key 1 2 3) = true :=
  delvec_keys_reverse_version_order 1 2 (by decide) (by decide) (by decide)

/-! ## Claim C6 -/

/-- Counterexample to claim C6 as stated: the delete-vector codec cannot
report failure.  `decode_del_vector_key` returns `void` in the source,
checks the 24-byte length only with a debug assertion, and on the
wrong-length two-byte input `"dl"` still produces an id triple —
(0, 0, INT64_MAX) — rather than a decode failure. -/
theorem decode_del_vector_key_wrong_length_cex :
    decode_del_vector_key [100, 108] = (0, 0, 9223372036854775807) := by decide

/-- Claim C6 (amended): decoding the encoding recovers the ids for every
namespace over the full valid ranges, and the header, log, rowset and
pending-rowset codecs report failure (not a crash) on wrong-length or
unparsable input; the delete-vector decode, however, validates nothing
and cannot report failure. -/
theorem key_codecs_roundtrip (t h lid rsid pv s : Nat) (dv : Int)
    (ht : t ≤ 9223372036854775807) (hh : h ≤ 2147483647)
    (hlid : lid ≤ 18446744073709551615) (hrsid : rsid ≤ 4294967295)
    (hpv : pv ≤ 9223372036854775807) (hs : s ≤ 4294967295)
    (hdv0 : 0 ≤ dv) (hdv : dv ≤ 9223372036854775807) :
    decode_tablet_meta_key (encode_tablet_meta_key t h) = some (t, h) ∧
    decode_meta_log_key (encode_meta_log_key t lid) = some (t, lid) ∧
    decode_meta_rowset_key (encode_meta_rowset_key t rsid) = some (t, rsid) ∧
    decode_meta_pending_rowset_key (encode_meta_pending_rowset_key t pv) =
      some (t, pv) ∧
    decode_del_vector_key (encode_del_vector_key t s dv) = (t, s, dv) ∧
    (∀ k : Key, k.length ≤ 12 → decode_tablet_meta_key k = none) ∧
    (∀ k : Key, k.length ≠ 20 → decode_meta_log_key k = none) ∧
    (∀ k : Key, k.length ≠ 16 → decode_meta_rowset_key k = none) ∧
    (∀ k : Key, k.length ≠ 20 → decode_meta_pending_rowset_key k = none) ∧
    decode_tablet_meta_key (HEADER_PFX ++ [97, 98, 95, 99, 100]) = none := by
  have ht64 : t < 2 ^ 64 := by omega
  refine ⟨decode_encode_tablet_meta_key ht hh,
    decode_encode_meta_log_key ht64 (by omega),
    decode_encode_meta_rowset_key ht64 (by omega),
    decode_encode_meta_pending_rowset_key ht64 (by omega),
    decode_encode_del_vector_key ht64 (by omega) hdv0 hdv,
    ?_, ?_, ?_, ?_, by decide⟩
  · intro k hk
    rw [decode_tablet_meta_key, if_pos hk]
  · intro k hk
    rw [decode_meta_log_key, if_neg hk]
  · intro k hk
    rw [decode_meta_rowset_key, if_neg hk]
  · intro k hk
    rw [decode_meta_pending_rowset_key, if_neg hk]

/-- Witness for the amended claim C6 at the maximal valid ids of every
field, with a delete-vector version also at its maximum. -/
theorem key_codecs_roundtrip_witness :
    decode_tablet_meta_key
        (encode_tablet_meta_key 9223372036854775807 2147483647) =
      some (9223372036854775807, 2147483647) ∧
    decode_meta_log_key
        (encode_meta_log_key 9223372036854775807 18446744073709551615) =
      some (9223372036854775807, 18446744073709551615) ∧
    decode_meta_rowset_key
        (encode_meta_rowset_key 9223372036854775807 4294967295) =
      some (9223372036854775807, 4294967295) ∧
    decode_meta_pending_rowset_key
        (encode_meta_pending_rowset_key 9223372036854775807 9223372036854775807) =
      some (9223372036854775807, 9223372036854775807) ∧
    decode_del_vector_key
        (encode_del_vector_key 9223372036854775807 4294967295 9223372036854775807) =
      (9223372036854775807, 4294967295, 9223372036854775807) ∧
    (∀ k : Key, k.length ≤ 12 → decode_tablet_meta_key k = none) ∧
    (∀ k : Key, k.length ≠ 20 → decode_meta_log_key k = none) ∧
    (∀ k : Key, k.length ≠ 16 → decode_meta_rowset_key k = none) ∧
    (∀ k : Key, k.length ≠ 20 → decode_meta_pending_rowset_key k = none) ∧
    decode_tablet_meta_key (HEADER_PFX ++ [97, 98, 95, 99, 100]) = none :=
  key_codecs_roundtrip 9223372036854775807 2147483647 18446744073709551615
    4294967295 9223372036854775807 4294967295 9223372036854775807
    (by decide) (by decide) (by decide) (by decide) (by decide) (by decide)
    (by decide) (by decide)

/-! ## Store lemmas -/

theorem applyBatch_cons (S : Store) (op : BatchOp) (rest : Batch) :
    applyBatch S (op :: rest) = applyBatch (applyOp S op) rest := rfl

theorem applyBatch_append (S : Store) (b1 b2 : Batch) :
    applyBatch S (b1 ++ b2) = applyBatch (applyBatch S b1) b2 :=
  List.foldl_append applyOp S b1 b2

theorem sfind_filter (q : Key → Bool) (S : Store) (k : Key) :
    sfind (S.filter (fun kv => q kv.1)) k = if q k then sfind S k else none := by
  induction S with
  | nil => simp [sfind]
  | cons e rest ih =>
    obtain ⟨k1, v1⟩ := e
    by_cases hq : q k1
    · rw [List.filter_cons_of_pos (by simpa using hq)]
      by_cases hk : k1 = k
      · subst hk
        simp [sfind, hq]
      · simp [sfind, hk, ih]
    · rw [List.filter_cons_of_neg (by simpa using hq)]
      by_cases hk : k1 = k
      · subst hk
        simp [sfind, hq, ih]
      · simp [sfind, hk, ih]

theorem sfind_eraseKey (k1 : Key) (S : Store) (k : Key) :
    sfind (eraseKey k1 S) k = if k = k1 then none else sfind S k := by
  rw [eraseKey, sfind_filter (fun x => decide (x ≠ k1))]
  by_cases hk : k = k1 <;> simp [hk]

theorem sfind_eraseRange (lo hi : Key) (S : Store) (k : Key) :
    sfind (eraseRange lo hi S) k =
      if lexLeB lo k && lexLtB k hi then none else sfind S k := by
  rw [eraseRange, sfind_filter (fun x => !(lexLeB lo x && lexLtB x hi))]
  by_cases hk : lexLeB lo k && lexLtB k hi <;> simp [hk]

theorem sfind_sput (S : Store) (k : Key) (v : Val) (k2 : Key) :
    sfind (sput S k v) k2 = if k = k2 then some v else sfind S k2 := by
  induction S with
  | nil => simp [sput, sfind]
  | cons e rest ih =>
    obtain ⟨k1, v1⟩ := e
    rw [sput]
    by_cases h1 : lexLtB k k1
    · rw [if_pos h1]
      by_cases hk : k = k2
      · subst hk; simp [sfind]
      · simp [sfind, hk]
    · rw [if_neg h1]
      by_cases h2 : k = k1
      · rw [if_pos h2]
        subst h2
        by_cases hk : k = k2
        · subst hk; simp [sfind]
        · simp [sfind, hk]
      · rw [if_neg h2]
        by_cases hk1 : k1 = k2
        · subst hk1
          have hne : ¬ k = k1 := h2
          simp [sfind, hne]
        · simp [sfind, hk1, ih]

/-- Effect of a batch with no puts: a key is gone exactly when some staged
delete covers it, and untouched otherwise. -/
theorem sfind_applyBatch_no_puts {B : Batch} (hB : ∀ op ∈ B, opIsPut op = false)
    (S : Store) (k : Key) :
    sfind (applyBatch S B) k = if B.any (opCovers k) then none else sfind S k := by
  induction B generalizing S with
  | nil => simp [applyBatch]
  | cons op rest ih =>
    have hrest : ∀ op ∈ rest, opIsPut op = false :=
      fun o ho => hB o (List.mem_cons_of_mem op ho)
    rw [applyBatch_cons, ih hrest]
    cases op with
    | put k1 v1 =>
      have := hB (BatchOp.put k1 v1) (List.mem_cons_self _ _)
      simp [opIsPut] at this
    | del k1 =>
      by_cases hc : rest.any (opCovers k) <;> by_cases hk : k = k1 <;>
        simp [applyOp, sfind_eraseKey, List.any_cons, opCovers, hc, hk, Ne.symm]
    | delRange lo hi =>
      by_cases hc : rest.any (opCovers k) <;>
        by_cases hk : lexLeB lo k && lexLtB k hi = true <;>
          simp [applyOp, sfind_eraseRange, List.any_cons, opCovers, hc, hk]

/-! ## Ordering of composite keys -/

theorem lexLtB_ne {a b : Key} (h : lexLtB a b = true) : a ≠ b := by
  intro hc
  subst hc
  rw [lexLtB_irrefl] at h
  exact Bool.false_ne_true h

theorem meta_log_key_lt_iff {t1 t2 l1 l2 : Nat} (ht1 : t1 < 2 ^ 64)
    (ht2 : t2 < 2 ^ 64) (hl1 : l1 < 2 ^ 64) (hl2 : l2 < 2 ^ 64) :
    (lexLtB (encode_meta_log_key t1 l1) (encode_meta_log_key t2 l2) = true ↔
      t1 < t2 ∨ (t1 = t2 ∧ l1 < l2)) := by
  rw [encode_meta_log_key, encode_meta_log_key]
  rw [lexLtB_append_iff _ _ (by simp [TABLET_META_LOG_PFX, be64_length])]
  rw [lexLtB_append_same, be64_lt_iff ht1 ht2, be64_lt_iff hl1 hl2]
  constructor
  · rintro (h | ⟨he, h⟩)
    · exact Or.inl h
    · exact Or.inr ⟨be64_inj ht1 ht2 (List.append_cancel_left he), h⟩
  · rintro (h | ⟨rfl, h⟩)
    · exact Or.inl h
    · exact Or.inr ⟨rfl, h⟩

theorem meta_rowset_key_lt_iff {t1 t2 r1 r2 : Nat} (ht1 : t1 < 2 ^ 64)
    (ht2 : t2 < 2 ^ 64) (hr1 : r1 < 2 ^ 32) (hr2 : r2 < 2 ^ 32) :
    (lexLtB (encode_meta_rowset_key t1 r1) (encode_meta_rowset_key t2 r2) = true ↔
      t1 < t2 ∨ (t1 = t2 ∧ r1 < r2)) := by
  rw [encode_meta_rowset_key, encode_meta_rowset_key]
  rw [lexLtB_append_iff _ _ (by simp [TABLET_META_ROWSET_PFX, be64_length])]
  rw [lexLtB_append_same, be64_lt_iff ht1 ht2, be32_lt_iff hr1 hr2]
  constructor
  · rintro (h | ⟨he, h⟩)
    · exact Or.inl h
    · exact Or.inr ⟨be64_inj ht1 ht2 (List.append_cancel_left he), h⟩
  · rintro (h | ⟨rfl, h⟩)
    · exact Or.inl h
    · exact Or.inr ⟨rfl, h⟩

theorem meta_pending_rowset_key_lt_iff {t1 t2 v1 v2 : Nat} (ht1 : t1 < 2 ^ 64)
    (ht2 : t2 < 2 ^ 64) (hv1 : v1 < 2 ^ 64) (hv2 : v2 < 2 ^ 64) :
    (lexLtB (encode_meta_pending_rowset_key t1 v1)
        (encode_meta_pending_rowset_key t2 v2) = true ↔
      t1 < t2 ∨ (t1 = t2 ∧ v1 < v2)) := by
  rw [encode_meta_pending_rowset_key, encode_meta_pending_rowset_key]
  rw [lexLtB_append_iff _ _ (by simp [TABLET_META_PENDING_ROWSET_PFX, be64_length])]
  rw [lexLtB_append_same, be64_lt_iff ht1 ht2, be64_lt_iff hv1 hv2]
  constructor
  · rintro (h | ⟨he, h⟩)
    · exact Or.inl h
    · exact Or.inr ⟨be64_inj ht1 ht2 (List.append_cancel_left he), h⟩
  · rintro (h | ⟨rfl, h⟩)
    · exact Or.inl h
    · exact Or.inr ⟨rfl, h⟩

/-- Comparison of two delete-vector keys by their (tablet, segment, stored
suffix) triples. -/
theorem del_vector_key_lt_iff {t1 t2 s1 s2 : Nat} {w1 w2 : Int} (ht1 : t1 < 2 ^ 64)
    (ht2 : t2 < 2 ^ 64) (hs1 : s1 < 2 ^ 32) (hs2 : s2 < 2 ^ 32)
    (hw1a : -1 ≤ w1) (hw1b : w1 ≤ 9223372036854775807)
    (hw2a : -1 ≤ w2) (hw2b : w2 ≤ 9223372036854775807) :
    (lexLtB (encode_del_vector_key t1 s1 w1) (encode_del_vector_key t2 s2 w2) = true ↔
      t1 < t2 ∨ (t1 = t2 ∧ (s1 < s2 ∨ (s1 = s2 ∧ w2 < w1)))) := by
  have hw1 := dlvStored_lt hw1a hw1b
  have hw2 := dlvStored_lt hw2a hw2b
  have hstored : (dlvStored w1 < dlvStored w2 ↔ w2 < w1) := by
    have hc1 := dlvStored_cast hw1a hw1b
    have hc2 := dlvStored_cast hw2a hw2b
    constructor
    · intro hlt
      have : (dlvStored w1 : Int) < (dlvStored w2 : Int) := by exact_mod_cast hlt
      omega
    · intro hlt
      have : (dlvStored w1 : Int) < (dlvStored w2 : Int) := by omega
      exact_mod_cast this
  rw [encode_del_vector_key, encode_del_vector_key]
  rw [lexLtB_append_iff _ _ (by simp [TABLET_DELVEC_PFX, be64_length, be32_length])]
  rw [lexLtB_append_iff _ _ (by simp [TABLET_DELVEC_PFX, be64_length])]
  rw [lexLtB_append_same, be64_lt_iff ht1 ht2, be32_lt_iff hs1 hs2,
    be64_lt_iff hw1 hw2, hstored]
  constructor
  · rintro ((h | ⟨he, h⟩) | ⟨he, h⟩)
    · exact Or.inl h
    · exact Or.inr ⟨be64_inj ht1 ht2 (List.append_cancel_left he), Or.inl h⟩
    · obtain ⟨hP, hs⟩ := List.append_inj he (by simp [TABLET_DELVEC_PFX, be64_length])
      exact Or.inr ⟨be64_inj ht1 ht2 (List.append_cancel_left hP),
        Or.inr ⟨be32_inj hs1 hs2 hs, h⟩⟩
  · rintro (h | ⟨rfl, (h | ⟨rfl, h⟩)⟩)
    · exact Or.inl (Or.inl h)
    · exact Or.inl (Or.inr ⟨rfl, h⟩)
    · exact Or.inr ⟨rfl, h⟩

/-- Header keys sort strictly before meta-log keys (`"tabletmeta_"` vs
`"tlg_"` differ at their second byte). -/
theorem header_key_lt_log_key (t1 h1 t2 l2 : Nat) :
    lexLtB (encode_tablet_meta_key t1 h1) (encode_meta_log_key t2 l2) = true := by
  rw [encode_tablet_meta_key, encode_meta_log_key, HEADER_PFX, TABLET_META_LOG_PFX]
  simp [lexLtB, List.cons_append]

theorem header_key_ne_log_key (t1 h1 t2 l2 : Nat) :
    encode_tablet_meta_key t1 h1 ≠ encode_meta_log_key t2 l2 :=
  lexLtB_ne (header_key_lt_log_key t1 h1 t2 l2)

/-! ## Claim C4 -/

/-- Claim C4: saving a versioned header (primary-key schema whose update
state carries `next_log_id`) commits the header put and the log range
delete `[0, next_log_id)` as one batch: afterwards the header is stored,
every log entry of the tablet with id below `next_log_id` is gone, and
every log entry with id at least `next_log_id` is unchanged. -/
theorem save_prunes_logs_below_next_log_id (S : Store) (t h nli : Nat)
    (m : TabletMetaPB) (ht : t < 2 ^ 64) (hnli : nli < 2 ^ 64)
    (hk : m.keys_type = KeysType.primaryKeys) (hu : m.updates = some ⟨some nli⟩) :
    (save S t h m).1 = Status.ok ∧
    sfind (save S t h m).2 (encode_tablet_meta_key t h) = some (Val.metaVal m) ∧
    (∀ lid, lid < nli →
      sfind (save S t h m).2 (encode_meta_log_key t lid) = none) ∧
    (∀ lid, lid < 2 ^ 64 → nli ≤ lid →
      sfind (save S t h m).2 (encode_meta_log_key t lid) =
        sfind S (encode_meta_log_key t lid)) := by
  rw [save, if_neg (by simp [hk]), hu]
  simp only [List.singleton_append, applyBatch, List.foldl_cons, List.foldl_nil, applyOp]
  refine ⟨trivial, ?_, ?_, ?_⟩
  · have h1 : lexLeB (encode_meta_log_key t 0) (encode_tablet_meta_key t h) = false := by
      rw [lexLeB, header_key_lt_log_key t h t 0]
      rfl
    rw [sfind_eraseRange, if_neg (by simp [h1]), sfind_sput, if_pos rfl]
  · intro lid hlid
    have hup : lexLtB (encode_meta_log_key t lid) (encode_meta_log_key t nli) = true :=
      (meta_log_key_lt_iff ht ht (by omega) hnli).2 (Or.inr ⟨rfl, hlid⟩)
    have hlow : lexLeB (encode_meta_log_key t 0) (encode_meta_log_key t lid) = true := by
      rw [lexLeB, Bool.not_eq_true', Bool.eq_false_iff]
      intro hc
      rw [meta_log_key_lt_iff ht ht (by omega) (by omega)] at hc
      omega
    rw [sfind_eraseRange, if_pos (by simp [hlow, hup])]
  · intro lid hl64 hge
    have h2 : lexLtB (encode_meta_log_key t lid) (encode_meta_log_key t nli) = false := by
      rw [Bool.eq_false_iff]
      intro hc
      rw [meta_log_key_lt_iff ht ht hl64 hnli] at hc
      omega
    rw [sfind_eraseRange, if_neg (by simp [h2]), sfind_sput,
      if_neg (header_key_ne_log_key t h t lid)]

/-- Witness for claim C4: saving a primary header with `next_log_id = 3`
for tablet 1, schema hash 2, over the empty store. -/
theorem save_prunes_logs_below_next_log_id_witness :
    (save [] 1 2 ⟨KeysType.primaryKeys, some ⟨some 3⟩⟩).1 = Status.ok ∧
    sfind (save [] 1 2 ⟨KeysType.primaryKeys, some ⟨some 3⟩⟩).2
        (encode_tablet_meta_key 1 2) =
      some (Val.metaVal ⟨KeysType.primaryKeys, some ⟨some 3⟩⟩) ∧
    (∀ lid, lid < 3 →
      sfind (save [] 1 2 ⟨KeysType.primaryKeys, some ⟨some 3⟩⟩).2
        (encode_meta_log_key 1 lid) = none) ∧
    (∀ lid, lid < 2 ^ 64 → 3 ≤ lid →
      sfind (save [] 1 2 ⟨KeysType.primaryKeys, some ⟨some 3⟩⟩).2
          (encode_meta_log_key 1 lid) =
        sfind [] (encode_meta_log_key 1 lid)) :=
  save_prunes_logs_below_next_log_id [] 1 2 3 ⟨KeysType.primaryKeys, some ⟨some 3⟩⟩
    (by decide) (by decide) rfl rfl

/-! ## Claim C9 -/

/-- Claim C9: saving a header that carries update state without a
`next_log_id` stages no log pruning — only the header key is written and
every other key, in particular every log entry, is unchanged. -/
theorem save_without_next_log_id_writes_only_header (S : Store) (t h : Nat)
    (m : TabletMetaPB) (u : TabletUpdatesPB)
    (hk : m.keys_type = KeysType.primaryKeys) (hu : m.updates = some u)
    (hnl : u.next_log_id = none) :
    (save S t h m).1 = Status.ok ∧
    sfind (save S t h m).2 (encode_tablet_meta_key t h) = some (Val.metaVal m) ∧
    (∀ k : Key, k ≠ encode_tablet_meta_key t h →
      sfind (save S t h m).2 k = sfind S k) := by
  rw [save, if_neg (by simp [hk]), hu]
  simp only [hnl]
  simp only [applyBatch, List.foldl_cons, List.foldl_nil, applyOp]
  refine ⟨trivial, ?_, ?_⟩
  · rw [sfind_sput, if_pos rfl]
  · intro k hkne
    rw [sfind_sput, if_neg (fun hc => hkne hc.symm)]

/-- Witness for claim C9: saving a primary header whose update state has
no `next_log_id`, for tablet 1, schema hash 2, over a one-record store
holding a log entry. -/
theorem save_without_next_log_id_writes_only_header_witness :
    (save [(encode_meta_log_key 1 0, Val.blob [5])] 1 2
        ⟨KeysType.primaryKeys, some ⟨none⟩⟩).1 = Status.ok ∧
    sfind (save [(encode_meta_log_key 1 0, Val.blob [5])] 1 2
        ⟨KeysType.primaryKeys, some ⟨none⟩⟩).2 (encode_tablet_meta_key 1 2) =
      some (Val.metaVal ⟨KeysType.primaryKeys, some ⟨none⟩⟩) ∧
    (∀ k : Key, k ≠ encode_tablet_meta_key 1 2 →
      sfind (save [(encode_meta_log_key 1 0, Val.blob [5])] 1 2
          ⟨KeysType.primaryKeys, some ⟨none⟩⟩).2 k =
        sfind [(encode_meta_log_key 1 0, Val.blob [5])] k) :=
  save_without_next_log_id_writes_only_header
    [(encode_meta_log_key 1 0, Val.blob [5])] 1 2
    ⟨KeysType.primaryKeys, some ⟨none⟩⟩ ⟨none⟩ rfl rfl rfl

/-! ## Claim C5 -/

/-- Claim C5: `delete_del_vector_range` returns OK without changes on an
empty range and InvalidArgument without changes on an inverted one;
otherwise it removes exactly the delete-vector records of that tablet and
segment with version in `[start_version, end_version)`, leaving every
other delete-vector record — other segments, other tablets, versions
below `start_version` or at least `end_version` — intact. -/
theorem delete_del_vector_range_spec (S : Store) (t s : Nat) (sv ev : Int)
    (ht : t < 2 ^ 64) (hs : s < 2 ^ 32) (hsv : 0 ≤ sv)
    (hev : ev ≤ 9223372036854775807) :
    (sv = ev → delete_del_vector_range S t s sv ev = (Status.ok, S)) ∧
    (sv > ev → delete_del_vector_range S t s sv ev = (Status.invalidArgument, S)) ∧
    (sv < ev →
      (delete_del_vector_range S t s sv ev).1 = Status.ok ∧
      ∀ (t2 s2 : Nat) (v : Int), t2 < 2 ^ 64 → s2 < 2 ^ 32 → 0 ≤ v →
        v ≤ 9223372036854775807 →
        sfind (delete_del_vector_range S t s sv ev).2
            (encode_del_vector_key t2 s2 v) =
          if t2 = t ∧ s2 = s ∧ sv ≤ v ∧ v < ev then none
          else sfind S (encode_del_vector_key t2 s2 v)) := by
  refine ⟨?_, ?_, ?_⟩
  · intro he
    rw [delete_del_vector_range, if_pos he]
  · intro hgt
    rw [delete_del_vector_range, if_neg (by omega), if_pos hgt]
  · intro hlt
    rw [delete_del_vector_range, if_neg (by omega), if_neg (by omega)]
    refine ⟨rfl, ?_⟩
    intro t2 s2 v ht2 hs2 hv0 hvM
    simp only [applyBatch, List.foldl_cons, List.foldl_nil, applyOp]
    rw [sfind_eraseRange]
    have hbeg : (lexLtB (encode_del_vector_key t2 s2 v)
        (encode_del_vector_key t s (ev - 1)) = true ↔
        t2 < t ∨ (t2 = t ∧ (s2 < s ∨ (s2 = s ∧ ev - 1 < v)))) :=
      del_vector_key_lt_iff ht2 ht hs2 hs (by omega) hvM (by omega) (by omega)
    have hend : (lexLtB (encode_del_vector_key t2 s2 v)
        (encode_del_vector_key t s (sv - 1)) = true ↔
        t2 < t ∨ (t2 = t ∧ (s2 < s ∨ (s2 = s ∧ sv - 1 < v)))) :=
      del_vector_key_lt_iff ht2 ht hs2 hs (by omega) hvM (by omega) (by omega)
    by_cases hcase : t2 = t ∧ s2 = s ∧ sv ≤ v ∧ v < ev
    · have hcond : (lexLeB (encode_del_vector_key t s (ev - 1))
          (encode_del_vector_key t2 s2 v) &&
          lexLtB (encode_del_vector_key t2 s2 v)
            (encode_del_vector_key t s (sv - 1))) = true := by
        rw [Bool.and_eq_true]
        constructor
        · rw [lexLeB, Bool.not_eq_true', Bool.eq_false_iff]
          intro hc
          rw [hbeg] at hc
          omega
        · rw [hend]
          omega
      rw [if_pos hcond, if_pos hcase]
    · rw [if_neg hcase, if_neg ?hc]
      case hc =>
        intro hc
        rw [Bool.and_eq_true] at hc
        obtain ⟨h1, h2⟩ := hc
        rw [lexLeB, Bool.not_eq_true', Bool.eq_false_iff] at h1
        have h1p : ¬(t2 < t ∨ (t2 = t ∧ (s2 < s ∨ (s2 = s ∧ ev - 1 < v)))) :=
          fun hp => h1 (hbeg.2 hp)
        rw [hend] at h2
        exact hcase (by omega)

/-- Witness for claim C5 at tablet 1, segment 1, range `[3, 10)` over the
sample store with delete vectors at versions 10, 7, 3: versions 3 and 7
are removed and version 10 stays. -/
theorem delete_del_vector_range_spec_witness :
    ((3 : Int) = 10 → delete_del_vector_range gdvSampleStore 1 1 3 10 =
      (Status.ok, gdvSampleStore)) ∧
    ((3 : Int) > 10 → delete_del_vector_range gdvSampleStore 1 1 3 10 =
      (Status.invalidArgument, gdvSampleStore)) ∧
    ((3 : Int) < 10 →
      (delete_del_vector_range gdvSampleStore 1 1 3 10).1 = Status.ok ∧
      ∀ (t2 s2 : Nat) (v : Int), t2 < 2 ^ 64 → s2 < 2 ^ 32 → 0 ≤ v →
        v ≤ 9223372036854775807 →
        sfind (delete_del_vector_range gdvSampleStore 1 1 3 10).2
            (encode_del_vector_key t2 s2 v) =
          if t2 = 1 ∧ s2 = 1 ∧ 3 ≤ v ∧ v < 10 then none
          else sfind gdvSampleStore (encode_del_vector_key t2 s2 v)) :=
  delete_del_vector_range_spec gdvSampleStore 1 1 3 10 (by decide) (by decide)
    (by decide) (by decide)

/-! ## Claim C1 -/

theorem delvec_key_in_segment_range {t s : Nat} {v : Int} (ht : t < 2 ^ 64)
    (hs : s < 2 ^ 32) (h0 : 0 ≤ v) (hM : v ≤ 9223372036854775807) :
    (lexLeB (encode_del_vector_key t s 9223372036854775807)
        (encode_del_vector_key t s v) &&
      lexLeB (encode_del_vector_key t s v) (encode_del_vector_key t s 0)) = true := by
  have h1 : (lexLtB (encode_del_vector_key t s v)
      (encode_del_vector_key t s 9223372036854775807) = true ↔
      t < t ∨ (t = t ∧ (s < s ∨ (s = s ∧ 9223372036854775807 < v)))) :=
    del_vector_key_lt_iff ht ht hs hs (by omega) hM (by omega) (by omega)
  have h2 : (lexLtB (encode_del_vector_key t s 0)
      (encode_del_vector_key t s v) = true ↔
      t < t ∨ (t = t ∧ (s < s ∨ (s = s ∧ v < 0)))) :=
    del_vector_key_lt_iff ht ht hs hs (by omega) (by omega) (by omega) hM
  rw [Bool.and_eq_true]
  constructor
  · rw [lexLeB, Bool.not_eq_true', Bool.eq_false_iff]
    intro hc
    rw [h1] at hc
    omega
  · rw [lexLeB, Bool.not_eq_true', Bool.eq_false_iff]
    intro hc
    rw [h2] at hc
    omega

theorem rangeEntries_delvecStore (t s : Nat) (L : List (Int × Val))
    (ht : t < 2 ^ 64) (hs : s < 2 ^ 32)
    (hrange : ∀ p ∈ L, 0 ≤ p.1 ∧ p.1 ≤ 9223372036854775807) :
    rangeEntries (encode_del_vector_key t s 9223372036854775807)
      (encode_del_vector_key t s 0) (delvecStore t s L) = delvecStore t s L := by
  rw [rangeEntries, List.filter_eq_self]
  intro kv hkv
  rw [delvecStore, List.mem_map] at hkv
  obtain ⟨p, hp, rfl⟩ := hkv
  exact delvec_key_in_segment_range ht hs (hrange p hp).1 (hrange p hp).2

/-- Scan of the remaining (older) records once the newest one has been
seen: the fold returns the first record whose version is at most the
query, leaving the recorded latest version untouched. -/
theorem gdv_scanFold_rest (t s : Nat) (q : Int) (L : List (Int × Val))
    (hrange : ∀ p ∈ L, 0 ≤ p.1 ∧ p.1 ≤ 9223372036854775807) (lat : Option Int) :
    scanFold (gdvVisit q) (delvecStore t s L) ⟨false, lat, none⟩ =
      match L.find? (fun p => decide (p.1 ≤ q)) with
      | some p => ⟨false, lat, some p⟩
      | none => ⟨false, lat, none⟩ := by
  induction L with
  | nil => rfl
  | cons p rest ih =>
    obtain ⟨v, val⟩ := p
    have hv := hrange (v, val) (List.mem_cons_self _ _)
    rw [delvecStore, List.map_cons, scanFold]
    simp only [gdvVisit,
      decode_del_vector_key_version_encode (by omega : (-1 : Int) ≤ v) hv.2]
    by_cases hq : q ≥ v
    · rw [List.find?_cons_of_pos _ (by simpa using hq)]
      simp [hq]
    · rw [List.find?_cons_of_neg _ (by simpa using hq)]
      have ihh := ih (fun p hp => hrange p (List.mem_cons_of_mem _ hp))
      rw [delvecStore] at ihh
      simp only [hq, if_false, if_neg hq]
      simpa using ihh

/-- In a strictly descending record list the head carries the newest
version. -/
theorem head_version_max (L : List (Int × Val))
    (hdesc : L.Pairwise (fun a b => b.1 < a.1)) :
    ∀ p ∈ L, ∀ hv ∈ L.head?, p.1 ≤ hv.1 := by
  cases L with
  | nil => intro p hp; simp at hp
  | cons a rest =>
    intro p hp hv hhv
    simp only [List.head?_cons, Option.mem_def, Option.some.injEq] at hhv
    subst hhv
    rcases List.mem_cons.1 hp with rfl | hp2
    · exact le_refl _
    · exact le_of_lt ((List.pairwise_cons.1 hdesc).1 p hp2)

/-- In a strictly descending record list, the first record with version at
most `q` has the greatest version among those at most `q`. -/
theorem find_version_max (q : Int) (L : List (Int × Val))
    (hdesc : L.Pairwise (fun a b => b.1 < a.1)) :
    ∀ pv : Int × Val, L.find? (fun p => decide (p.1 ≤ q)) = some pv →
      pv.1 ≤ q ∧ ∀ p ∈ L, p.1 ≤ q → p.1 ≤ pv.1 := by
  induction L with
  | nil => intro pv hpv; simp at hpv
  | cons a rest ih =>
    intro pv hpv
    by_cases ha : a.1 ≤ q
    · rw [List.find?_cons_of_pos _ (by simpa using ha)] at hpv
      obtain rfl := Option.some.injEq _ _ ▸ hpv
      refine ⟨ha, ?_⟩
      intro p hp hpq
      rcases List.mem_cons.1 hp with rfl | hp2
      · exact le_refl _
      · exact le_of_lt ((List.pairwise_cons.1 hdesc).1 p hp2)
    · rw [List.find?_cons_of_neg _ (by simpa using ha)] at hpv
      obtain ⟨h1, h2⟩ := ih (List.pairwise_cons.1 hdesc).2 pv hpv
      refine ⟨h1, ?_⟩
      intro p hp hpq
      rcases List.mem_cons.1 hp with rfl | hp2
      · exact absurd hpq ha
      · exact h2 p hp2 hpq

/-- Claim C1: `get_del_vector` scans the segment's records from the
newest stored version downward and returns the first record whose version
is at most the query version; it reports the newest stored version as
`latest_version` whenever at least one record exists, matched or not; and
it returns NotFound exactly when no stored record of the segment has
version at most the query version.  `L` lists the segment's stored
records newest-first, as its reverse-encoded key range arranges them. -/
theorem get_del_vector_first_le_query (S : Store) (t s : Nat) (q : Int)
    (L : List (Int × Val)) (ht : t < 2 ^ 64) (hs : s < 2 ^ 32)
    (hrange : ∀ p ∈ L, 0 ≤ p.1 ∧ p.1 ≤ 9223372036854775807)
    (hdesc : L.Pairwise (fun a b => b.1 < a.1))
    (hscan : rangeEntries (encode_del_vector_key t s 9223372036854775807)
      (encode_del_vector_key t s 0) S = delvecStore t s L) :
    (get_del_vector S t s q).2.1 = L.find? (fun p => decide (p.1 ≤ q)) ∧
    ((get_del_vector S t s q).1 = Status.notFound ↔
      L.find? (fun p => decide (p.1 ≤ q)) = none) ∧
    (get_del_vector S t s q).2.2 = L.head?.map Prod.fst ∧
    (∀ p ∈ L, ∀ hv ∈ L.head?, p.1 ≤ hv.1) ∧
    (∀ pv : Int × Val, L.find? (fun p => decide (p.1 ≤ q)) = some pv →
      pv.1 ≤ q ∧ ∀ p ∈ L, p.1 ≤ q → p.1 ≤ pv.1) := by
  have hfold : get_del_vector S t s q =
      match L.find? (fun p => decide (p.1 ≤ q)) with
      | some r => (Status.ok, some r, L.head?.map Prod.fst)
      | none => (Status.notFound, none, L.head?.map Prod.fst) := by
    rw [get_del_vector, hscan]
    cases L with
    | nil => rfl
    | cons p rest =>
      obtain ⟨v, val⟩ := p
      have hv := hrange (v, val) (List.mem_cons_self _ _)
      rw [delvecStore, List.map_cons, scanFold]
      simp only [gdvVisit,
        decode_del_vector_key_version_encode (by omega : (-1 : Int) ≤ v) hv.2]
      by_cases hq : q ≥ v
      · rw [List.find?_cons_of_pos _ (by simpa using hq)]
        simp [hq]
      · rw [List.find?_cons_of_neg _ (by simpa using hq)]
        have ihh := gdv_scanFold_rest t s q rest
          (fun p hp => hrange p (List.mem_cons_of_mem _ hp)) (some v)
        rw [delvecStore] at ihh
        simp only [hq, if_false, if_neg hq]
        simp only [List.head?_cons, Option.map_some, if_true]
        rw [ihh]
        rcases hf : rest.find? (fun p => decide (p.1 ≤ q)) with _ | r <;> simp [hf]
  refine ⟨?_, ?_, ?_, head_version_max L hdesc, find_version_max q L hdesc⟩
  · rw [hfold]
    rcases hf : L.find? (fun p => decide (p.1 ≤ q)) with _ | r <;> simp [hf]
  · rw [hfold]
    rcases hf : L.find? (fun p => decide (p.1 ≤ q)) with _ | r <;> simp [hf]
  · rw [hfold]
    rcases hf : L.find? (fun p => decide (p.1 ≤ q)) with _ | r <;> simp [hf]

/-- Witness for claim C1 on the sample store with versions 10, 7, 3 of
segment 1 of tablet 1, queried at version 8: the version-7 record is
returned and 10 is reported as the latest stored version. -/
theorem get_del_vector_first_le_query_witness :
    (get_del_vector gdvSampleStore 1 1 8).2.1 =
      ([(10, Val.blob [10]), (7, Val.blob [7]), (3, Val.blob [3])] :
        List (Int × Val)).find? (fun p => decide (p.1 ≤ 8)) ∧
    ((get_del_vector gdvSampleStore 1 1 8).1 = Status.notFound ↔
      ([(10, Val.blob [10]), (7, Val.blob [7]), (3, Val.blob [3])] :
        List (Int × Val)).find? (fun p => decide (p.1 ≤ 8)) = none) ∧
    (get_del_vector gdvSampleStore 1 1 8).2.2 =
      ([(10, Val.blob [10]), (7, Val.blob [7]), (3, Val.blob [3])] :
        List (Int × Val)).head?.map Prod.fst ∧
    (∀ p ∈ ([(10, Val.blob [10]), (7, Val.blob [7]), (3, Val.blob [3])] :
        List (Int × Val)), ∀ hv ∈ ([(10, Val.blob [10]), (7, Val.blob [7]),
        (3, Val.blob [3])] : List (Int × Val)).head?, p.1 ≤ hv.1) ∧
    (∀ pv : Int × Val, ([(10, Val.blob [10]), (7, Val.blob [7]),
        (3, Val.blob [3])] : List (Int × Val)).find?
          (fun p => decide (p.1 ≤ 8)) = some pv →
      pv.1 ≤ 8 ∧ ∀ p ∈ ([(10, Val.blob [10]), (7, Val.blob [7]),
        (3, Val.blob [3])] : List (Int × Val)), p.1 ≤ 8 → p.1 ≤ pv.1) :=
  get_del_vector_first_le_query gdvSampleStore 1 1 8
    [(10, Val.blob [10]), (7, Val.blob [7]), (3, Val.blob [3])]
    (by decide) (by decide) (by decide) (by decide) (by decide)

/-! ## Claim C8 -/

/-- Counterexample to claim C8 as stated: `traverse_headers`, scanning a
store whose first header key (`"tabletmeta_0"`, 12 bytes) does not
decode, does not stop and does not return Corruption — it skips the bad
key, visits the following good header, and returns OK. -/
theorem traverse_headers_skips_bad_key_cex :
    traverse_headers badHeaderStore (fun _ _ _ => true) =
      (Status.ok, [(1, 2, Val.metaVal primaryMeta)]) := by decide

/-- Header scan with an always-continue callback: visits exactly the
decodable keys, in order, skipping the others. -/
theorem th_scanFold_visits (es : List (Key × Val)) (vis : List (Nat × Nat × Val)) :
    scanFold (thVisit (fun _ _ _ => true)) es vis =
      vis ++ es.filterMap
        (fun kv => (decode_tablet_meta_key kv.1).map (fun p => (p.1, p.2, kv.2))) := by
  induction es generalizing vis with
  | nil => simp [scanFold]
  | cons e rest ih =>
    rw [scanFold]
    rcases hd : decode_tablet_meta_key e.1 with _ | p
    · simp only [thVisit, hd]
      rw [ih vis, List.filterMap_cons, hd]
      rfl
    · obtain ⟨tid, h⟩ := p
      simp only [thVisit, hd]
      rw [ih (vis ++ [(tid, h, e.2)]), List.filterMap_cons, hd]
      simp

/-- Meta-log scan with an always-continue callback: the recorded status is
Corruption exactly when some visited entry in the range has an
undecodable key or a value that does not parse as a meta log. -/
theorem tml_scanFold_ret (es : List (Key × Val)) (vis : List (Nat × TabletMetaLogPB)) :
    ((scanFold (tmlVisit (fun _ _ => true)) es ⟨Status.ok, vis⟩).ret =
        Status.corruption ↔
      ¬ ∀ kv ∈ es, (decode_meta_log_key kv.1).isSome ∧
        ∃ l, kv.2 = Val.logVal l) := by
  induction es generalizing vis with
  | nil => simp [scanFold]
  | cons e rest ih =>
    rw [scanFold]
    rcases hd : decode_meta_log_key e.1 with _ | p
    · simp only [tmlVisit, hd]
      simp [hd]
    · obtain ⟨tid, logid⟩ := p
      rcases hval : e.2 with bytes | m | l | r
      · simp only [tmlVisit, hd, hval]
        simp [hd, hval]
      · simp only [tmlVisit, hd, hval]
        simp [hd, hval]
      · simp only [tmlVisit, hd, hval, if_true]
        rw [ih (vis ++ [(logid, l)])]
        simp [hd, hval]
      · simp only [tmlVisit, hd, hval]
        simp [hd, hval]

/-- Claim C8 (amended): of the three read-only traversals, only
`traverse_meta_logs` aborts the scan and surfaces Corruption on a stored
entry that does not decode (or whose value does not parse);
`traverse_headers` logs and skips an undecodable key, continuing with the
rest and returning OK; `pending_rowset_iterate` stops its scan at an
undecodable key but still returns OK, reporting no error. -/
theorem traversal_decode_failure_behavior (S : Store) (tablet_id : Nat) :
    (∀ f, (traverse_headers S f).1 = Status.ok) ∧
    ((traverse_headers S (fun _ _ _ => true)).2 =
      (prefixEntries HEADER_PFX S).filterMap
        (fun kv => (decode_tablet_meta_key kv.1).map (fun p => (p.1, p.2, kv.2)))) ∧
    ((traverse_meta_logs S tablet_id (fun _ _ => true)).1 = Status.corruption ↔
      ¬ ∀ kv ∈ rangeEntries (encode_meta_log_key tablet_id 0)
          (encode_meta_log_key tablet_id 18446744073709551615) S,
        (decode_meta_log_key kv.1).isSome ∧ ∃ l, kv.2 = Val.logVal l) ∧
    (∀ f, (pending_rowset_iterate S tablet_id f).1 = Status.ok) := by
  refine ⟨fun f => rfl, ?_, ?_, fun f => rfl⟩
  · rw [traverse_headers]
    exact th_scanFold_visits _ []
  · rw [traverse_meta_logs]
    exact tml_scanFold_ret _ []

/-! ## Claim C3 -/

/-- Counterexample to claim C3 as stated: removing primary-key tablet 1
deletes its header but leaves the log entry at the extreme id
`UINT64_MAX` in the store, because `clear_log` deletes the half-open
range `[0, UINT64_MAX)`. -/
theorem remove_leaves_max_log_id_cex :
    (remove removeEdgeStore 1).1 = Status.ok ∧
    sfind (remove removeEdgeStore 1).2 (encode_tablet_meta_key 1 2) = none ∧
    sfind (remove removeEdgeStore 1).2
      (encode_meta_log_key 1 18446744073709551615) = some (Val.blob [1]) := by
  decide

theorem isPfx_append_self (p x : Key) : isPfx p (p ++ x) = true := by
  induction p with
  | nil => rfl
  | cons a as ih => simp [isPfx, List.cons_append, ih]

theorem encode_tablet_meta_key_pfx (t h : Nat) :
    encode_tablet_meta_key t h = headerScanPfx t ++ decDigits h := rfl

theorem sfind_some_mem {S : Store} {k : Key} {v : Val} (h : sfind S k = some v) :
    (k, v) ∈ S := by
  induction S with
  | nil => simp [sfind] at h
  | cons e rest ih =>
    obtain ⟨k1, v1⟩ := e
    rw [sfind] at h
    by_cases hk : k1 = k
    · rw [if_pos hk] at h
      obtain rfl := Option.some.injEq _ _ ▸ h
      exact hk ▸ List.mem_cons_self _ _
    · rw [if_neg hk] at h
      exact List.mem_cons_of_mem _ (ih h)

/-- Header scan of `remove` over entries that all decode to this tablet
and parse as primary-key headers: every visited key is staged for
deletion and `is_primary` ends true once at least one entry was seen. -/
theorem remove_scanFold_primary (tablet_id : Nat) (es : List (Key × Val))
    (hes : ∀ kv ∈ es, DecodesToTablet tablet_id kv.1 ∧
      valKeysType kv.2 = some KeysType.primaryKeys) (b0 : Batch) (p0 : Bool) :
    scanFold (removeVisit tablet_id) es ⟨b0, p0⟩ =
      ⟨b0 ++ es.map (fun kv => BatchOp.del kv.1),
        if es = [] then p0 else true⟩ := by
  induction es generalizing b0 p0 with
  | nil => simp [scanFold]
  | cons kv rest ih =>
    obtain ⟨hdec, hval⟩ := hes kv (List.mem_cons_self _ _)
    rcases hd : decode_tablet_meta_key kv.1 with _ | p
    · rw [DecodesToTablet, hd] at hdec
      simp at hdec
    · obtain ⟨tid, hx⟩ := p
      rw [DecodesToTablet, hd] at hdec
      simp at hdec
      subst hdec
      rcases hv : kv.2 with bytes | m | l | r
      · rw [hv] at hval
        simp [valKeysType] at hval
      · rw [hv] at hval
        simp only [valKeysType, Option.some.injEq] at hval
        rw [scanFold]
        simp only [removeVisit, hd, if_pos rfl, hv, hval]
        rw [ih (fun kv hkv => hes kv (List.mem_cons_of_mem _ hkv))]
        simp
      · rw [hv] at hval
        simp [valKeysType] at hval
      · rw [hv] at hval
        simp [valKeysType] at hval

/-- Header scan of `remove` over entries that decode to this tablet but
whose values fail to parse: every visited key is still staged for
deletion, and `is_primary` keeps its initial value. -/
theorem remove_scanFold_unparsable (tablet_id : Nat) (es : List (Key × Val))
    (hes : ∀ kv ∈ es, DecodesToTablet tablet_id kv.1 ∧ valKeysType kv.2 = none)
    (b0 : Batch) (p0 : Bool) :
    scanFold (removeVisit tablet_id) es ⟨b0, p0⟩ =
      ⟨b0 ++ es.map (fun kv => BatchOp.del kv.1), p0⟩ := by
  induction es generalizing b0 p0 with
  | nil => simp [scanFold]
  | cons kv rest ih =>
    obtain ⟨hdec, hval⟩ := hes kv (List.mem_cons_self _ _)
    rcases hd : decode_tablet_meta_key kv.1 with _ | p
    · rw [DecodesToTablet, hd] at hdec
      simp at hdec
    · obtain ⟨tid, hx⟩ := p
      rw [DecodesToTablet, hd] at hdec
      simp at hdec
      subst hdec
      rcases hv : kv.2 with bytes | m | l | r
      · rw [scanFold]
        simp only [removeVisit, hd, if_pos rfl, hv]
        rw [ih (fun kv hkv => hes kv (List.mem_cons_of_mem _ hkv))]
        simp
      · rw [hv] at hval
        simp [valKeysType] at hval
      · rw [scanFold]
        simp only [removeVisit, hd, if_pos rfl, hv]
        rw [ih (fun kv hkv => hes kv (List.mem_cons_of_mem _ hkv))]
        simp
      · rw [scanFold]
        simp only [removeVisit, hd, if_pos rfl, hv]
        rw [ih (fun kv hkv => hes kv (List.mem_cons_of_mem _ hkv))]
        simp

/-- Claim C3 (amended): after `remove` on a tablet whose stored headers
all identify it as a primary-key tablet, the headers are gone and so is
every key of the four dependent namespaces with ids strictly below the
extreme values — log ids below `UINT64_MAX`, rowset ids and delete-vector
segment ids below `UINT32_MAX`, pending versions below `INT64_MAX`; the
half-open clears leave keys at exactly those maxima behind. -/
theorem remove_clears_tablet_ranges (S : Store) (tablet_id h0 : Nat)
    (m0 : TabletMetaPB) (ht : tablet_id < 2 ^ 64)
    (hmem : (encode_tablet_meta_key tablet_id h0, Val.metaVal m0) ∈ S)
    (hhdr : ∀ kv ∈ S, isPfx (headerScanPfx tablet_id) kv.1 = true →
      DecodesToTablet tablet_id kv.1 ∧
      valKeysType kv.2 = some KeysType.primaryKeys) :
    (remove S tablet_id).1 = Status.ok ∧
    (∀ h, sfind (remove S tablet_id).2 (encode_tablet_meta_key tablet_id h) = none) ∧
    (∀ lid, lid < 18446744073709551615 →
      sfind (remove S tablet_id).2 (encode_meta_log_key tablet_id lid) = none) ∧
    (∀ rsid, rsid < 4294967295 →
      sfind (remove S tablet_id).2 (encode_meta_rowset_key tablet_id rsid) = none) ∧
    (∀ pv, pv < 9223372036854775807 →
      sfind (remove S tablet_id).2
        (encode_meta_pending_rowset_key tablet_id pv) = none) ∧
    (∀ seg, seg < 4294967295 → ∀ v : Int, 0 ≤ v → v ≤ 9223372036854775807 →
      sfind (remove S tablet_id).2 (encode_del_vector_key tablet_id seg v) = none) := by
  have hes : ∀ kv ∈ prefixEntries (headerScanPfx tablet_id) S,
      DecodesToTablet tablet_id kv.1 ∧
      valKeysType kv.2 = some KeysType.primaryKeys := by
    intro kv hkv
    obtain ⟨hmemS, hpfx⟩ := List.mem_filter.1 hkv
    exact hhdr kv hmemS (by simpa using hpfx)
  have hne : prefixEntries (headerScanPfx tablet_id) S ≠ [] := by
    have : (encode_tablet_meta_key tablet_id h0, Val.metaVal m0) ∈
        prefixEntries (headerScanPfx tablet_id) S := by
      rw [prefixEntries, List.mem_filter]
      refine ⟨hmem, by simp [encode_tablet_meta_key_pfx, isPfx_append_self]⟩
    exact List.ne_nil_of_mem this
  have hrm : remove S tablet_id =
      (Status.ok, applyBatch S
        ((prefixEntries (headerScanPfx tablet_id) S).map
            (fun kv => BatchOp.del kv.1) ++
          clear_log tablet_id ++ clear_del_vector tablet_id ++
          clear_rowset tablet_id ++ clear_pending_rowset tablet_id)) := by
    rw [remove]
    rw [remove_scanFold_primary tablet_id _ hes [] false]
    rw [if_neg hne]
    simp
  have hB : ∀ op ∈ (prefixEntries (headerScanPfx tablet_id) S).map
      (fun kv => BatchOp.del kv.1) ++
      clear_log tablet_id ++ clear_del_vector tablet_id ++
      clear_rowset tablet_id ++ clear_pending_rowset tablet_id,
      opIsPut op = false := by
    intro op hop
    simp only [List.mem_append, List.mem_map, clear_log, clear_del_vector,
      clear_rowset, clear_pending_rowset, List.mem_singleton] at hop
    rcases hop with ((((⟨kv, _, rfl⟩ | rfl) | rfl) | rfl) | rfl) <;> rfl
  rw [hrm]
  refine ⟨rfl, ?_, ?_, ?_, ?_, ?_⟩
  · intro h
    rw [sfind_applyBatch_no_puts hB]
    by_cases hcov : ((prefixEntries (headerScanPfx tablet_id) S).map
        (fun kv => BatchOp.del kv.1) ++
        clear_log tablet_id ++ clear_del_vector tablet_id ++
        clear_rowset tablet_id ++ clear_pending_rowset tablet_id).any
        (opCovers (encode_tablet_meta_key tablet_id h)) = true
    · rw [if_pos hcov]
    · rw [if_neg hcov]
      rcases hsf : sfind S (encode_tablet_meta_key tablet_id h) with _ | v
      · rfl
      · exfalso
        have hmem2 : (encode_tablet_meta_key tablet_id h, v) ∈
            prefixEntries (headerScanPfx tablet_id) S := by
          rw [prefixEntries, List.mem_filter]
          exact ⟨sfind_some_mem hsf,
            by simp [encode_tablet_meta_key_pfx, isPfx_append_self]⟩
        refine hcov (List.any_eq_true.2 ⟨BatchOp.del (encode_tablet_meta_key tablet_id h), ?_, ?_⟩)
        · simp only [List.mem_append]
          exact Or.inl (Or.inl (Or.inl (Or.inl
            (List.mem_map.2 ⟨_, hmem2, rfl⟩))))
        · simp [opCovers]
  · intro lid hlid
    rw [sfind_applyBatch_no_puts hB, if_pos]
    rw [List.any_eq_true]
    refine ⟨BatchOp.delRange (encode_meta_log_key tablet_id 0)
        (encode_meta_log_key tablet_id 18446744073709551615), ?_, ?_⟩
    · simp [clear_log, List.mem_append]
    · rw [opCovers, Bool.and_eq_true]
      constructor
      · rw [lexLeB, Bool.not_eq_true', Bool.eq_false_iff]
        intro hc
        rw [meta_log_key_lt_iff ht ht (by omega) (by omega)] at hc
        omega
      · rw [meta_log_key_lt_iff ht ht (by omega) (by omega)]
        omega
  · intro rsid hrsid
    rw [sfind_applyBatch_no_puts hB, if_pos]
    rw [List.any_eq_true]
    refine ⟨BatchOp.delRange (encode_meta_rowset_key tablet_id 0)
        (encode_meta_rowset_key tablet_id 4294967295), ?_, ?_⟩
    · simp [clear_rowset, List.mem_append]
    · rw [opCovers, Bool.and_eq_true]
      constructor
      · rw [lexLeB, Bool.not_eq_true', Bool.eq_false_iff]
        intro hc
        rw [meta_rowset_key_lt_iff ht ht (by omega) (by omega)] at hc
        omega
      · rw [meta_rowset_key_lt_iff ht ht (by omega) (by omega)]
        omega
  · intro pv hpv
    rw [sfind_applyBatch_no_puts hB, if_pos]
    rw [List.any_eq_true]
    refine ⟨BatchOp.delRange (encode_meta_pending_rowset_key tablet_id 0)
        (encode_meta_pending_rowset_key tablet_id 9223372036854775807), ?_, ?_⟩
    · simp [clear_pending_rowset, List.mem_append]
    · rw [opCovers, Bool.and_eq_true]
      constructor
      · rw [lexLeB, Bool.not_eq_true', Bool.eq_false_iff]
        intro hc
        rw [meta_pending_rowset_key_lt_iff ht ht (by omega) (by omega)] at hc
        omega
      · rw [meta_pending_rowset_key_lt_iff ht ht (by omega) (by omega)]
        omega
  · intro seg hseg v hv0 hvM
    rw [sfind_applyBatch_no_puts hB, if_pos]
    rw [List.any_eq_true]
    refine ⟨BatchOp.delRange (encode_del_vector_key tablet_id 0 9223372036854775807)
        (encode_del_vector_key tablet_id 4294967295 9223372036854775807), ?_, ?_⟩
    · simp [clear_del_vector, List.mem_append]
    · rw [opCovers, Bool.and_eq_true]
      have hlo : (lexLtB (encode_del_vector_key tablet_id seg v)
          (encode_del_vector_key tablet_id 0 9223372036854775807) = true ↔
          tablet_id < tablet_id ∨ (tablet_id = tablet_id ∧
            (seg < 0 ∨ (seg = 0 ∧ 9223372036854775807 < v)))) :=
        del_vector_key_lt_iff (by omega) ht (by omega) (by omega) (by omega) hvM
          (by omega) (by omega)
      have hhi : (lexLtB (encode_del_vector_key tablet_id seg v)
          (encode_del_vector_key tablet_id 4294967295 9223372036854775807) = true ↔
          tablet_id < tablet_id ∨ (tablet_id = tablet_id ∧
            (seg < 4294967295 ∨ (seg = 4294967295 ∧ 9223372036854775807 < v)))) :=
        del_vector_key_lt_iff (by omega) ht (by omega) (by omega) (by omega) hvM
          (by omega) (by omega)
      constructor
      · rw [lexLeB, Bool.not_eq_true', Bool.eq_false_iff]
        intro hc
        rw [hlo] at hc
        omega
      · rw [hhi]
        omega

/-- Witness for the amended claim C3 on the two-record sample store:
removing tablet 1 leaves no header, no sub-maximal log, rowset, pending
or delete-vector key. -/
theorem remove_clears_tablet_ranges_witness :
    (remove removeEdgeStore 1).1 = Status.ok ∧
    (∀ h, sfind (remove removeEdgeStore 1).2 (encode_tablet_meta_key 1 h) = none) ∧
    (∀ lid, lid < 18446744073709551615 →
      sfind (remove removeEdgeStore 1).2 (encode_meta_log_key 1 lid) = none) ∧
    (∀ rsid, rsid < 4294967295 →
      sfind (remove removeEdgeStore 1).2 (encode_meta_rowset_key 1 rsid) = none) ∧
    (∀ pv, pv < 9223372036854775807 →
      sfind (remove removeEdgeStore 1).2
        (encode_meta_pending_rowset_key 1 pv) = none) ∧
    (∀ seg, seg < 4294967295 → ∀ v : Int, 0 ≤ v → v ≤ 9223372036854775807 →
      sfind (remove removeEdgeStore 1).2 (encode_del_vector_key 1 seg v) = none) :=
  remove_clears_tablet_ranges removeEdgeStore 1 2 primaryMeta (by decide)
    (by decide) (by decide)

/-! ## Claim C10 -/

/-- Claim C10: when the stored header value(s) of the tablet fail to
parse as a tablet-meta message, `remove` still deletes the header key(s)
and returns success, but stages no cleanup of the tablet's log, rowset,
pending-rowset or delete-vector ranges — every key outside the tablet's
header prefix is left exactly as it was. -/
theorem remove_unparsable_header (S : Store) (tablet_id h0 : Nat) (v0 : Val)
    (hmem : (encode_tablet_meta_key tablet_id h0, v0) ∈ S)
    (hhdr : ∀ kv ∈ S, isPfx (headerScanPfx tablet_id) kv.1 = true →
      DecodesToTablet tablet_id kv.1 ∧ valKeysType kv.2 = none) :
    (remove S tablet_id).1 = Status.ok ∧
    (∀ h, sfind (remove S tablet_id).2 (encode_tablet_meta_key tablet_id h) = none) ∧
    (∀ k : Key, isPfx (headerScanPfx tablet_id) k = false →
      sfind (remove S tablet_id).2 k = sfind S k) := by
  have hes : ∀ kv ∈ prefixEntries (headerScanPfx tablet_id) S,
      DecodesToTablet tablet_id kv.1 ∧ valKeysType kv.2 = none := by
    intro kv hkv
    obtain ⟨hmemS, hpfx⟩ := List.mem_filter.1 hkv
    exact hhdr kv hmemS (by simpa using hpfx)
  have hrm : remove S tablet_id =
      (Status.ok, applyBatch S
        ((prefixEntries (headerScanPfx tablet_id) S).map
          (fun kv => BatchOp.del kv.1))) := by
    rw [remove]
    rw [remove_scanFold_unparsable tablet_id _ hes [] false]
    simp
  have hB : ∀ op ∈ (prefixEntries (headerScanPfx tablet_id) S).map
      (fun kv => BatchOp.del kv.1), opIsPut op = false := by
    intro op hop
    obtain ⟨kv, _, rfl⟩ := List.mem_map.1 hop
    rfl
  rw [hrm]
  refine ⟨rfl, ?_, ?_⟩
  · intro h
    rw [sfind_applyBatch_no_puts hB]
    by_cases hcov : ((prefixEntries (headerScanPfx tablet_id) S).map
        (fun kv => BatchOp.del kv.1)).any
        (opCovers (encode_tablet_meta_key tablet_id h)) = true
    · rw [if_pos hcov]
    · rw [if_neg hcov]
      rcases hsf : sfind S (encode_tablet_meta_key tablet_id h) with _ | v
      · rfl
      · exfalso
        have hmem2 : (encode_tablet_meta_key tablet_id h, v) ∈
            prefixEntries (headerScanPfx tablet_id) S := by
          rw [prefixEntries, List.mem_filter]
          exact ⟨sfind_some_mem hsf,
            by simp [encode_tablet_meta_key_pfx, isPfx_append_self]⟩
        exact hcov (List.any_eq_true.2
          ⟨BatchOp.del (encode_tablet_meta_key tablet_id h),
            List.mem_map.2 ⟨_, hmem2, rfl⟩, by simp [opCovers]⟩)
  · intro k hk
    rw [sfind_applyBatch_no_puts hB, if_neg]
    rw [Bool.not_eq_true, Bool.eq_false_iff]
    intro hc
    obtain ⟨op, hop, hcov⟩ := List.any_eq_true.1 hc
    obtain ⟨kv, hkv, rfl⟩ := List.mem_map.1 hop
    rw [opCovers, decide_eq_true_eq] at hcov
    subst hcov
    obtain ⟨_, hpfx⟩ := List.mem_filter.1 hkv
    rw [hk] at hpfx
    exact Bool.false_ne_true hpfx

/-- Witness for claim C10: removing tablet 1 whose header value is an
unparsable blob deletes the header, returns OK, and leaves the log entry
untouched. -/
theorem remove_unparsable_header_witness :
    (remove [(encode_tablet_meta_key 1 2, Val.blob [9]),
      (encode_meta_log_key 1 0, Val.blob [1])] 1).1 = Status.ok ∧
    (∀ h, sfind (remove [(encode_tablet_meta_key 1 2, Val.blob [9]),
      (encode_meta_log_key 1 0, Val.blob [1])] 1).2
        (encode_tablet_meta_key 1 h) = none) ∧
    (∀ k : Key, isPfx (headerScanPfx 1) k = false →
      sfind (remove [(encode_tablet_meta_key 1 2, Val.blob [9]),
        (encode_meta_log_key 1 0, Val.blob [1])] 1).2 k =
      sfind [(encode_tablet_meta_key 1 2, Val.blob [9]),
        (encode_meta_log_key 1 0, Val.blob [1])] k) :=
  remove_unparsable_header
    [(encode_tablet_meta_key 1 2, Val.blob [9]),
      (encode_meta_log_key 1 0, Val.blob [1])] 1 2 (Val.blob [9])
    (by decide) (by decide)

/-! ## Store membership, counting and order preservation -/

theorem mem_eraseKey {kv : Key × Val} {k : Key} {S : Store} :
    kv ∈ eraseKey k S ↔ kv ∈ S ∧ kv.1 ≠ k := by
  rw [eraseKey, List.mem_filter]
  simp

theorem mem_prefixEntries {kv : Key × Val} {p : Key} {S : Store} :
    kv ∈ prefixEntries p S ↔ kv ∈ S ∧ isPfx p kv.1 = true := by
  rw [prefixEntries, List.mem_filter]

theorem mem_sput {kv : Key × Val} {S : Store} {k : Key} {v : Val}
    (h : kv ∈ sput S k v) : kv ∈ S ∨ kv = (k, v) := by
  induction S with
  | nil =>
    rw [sput, List.mem_singleton] at h
    exact Or.inr h
  | cons e rest ih =>
    obtain ⟨k1, v1⟩ := e
    rw [sput] at h
    by_cases h1 : lexLtB k k1
    · rw [if_pos h1] at h
      rcases List.mem_cons.1 h with rfl | h2
      · exact Or.inr rfl
      · exact Or.inl h2
    · rw [if_neg h1] at h
      by_cases h2 : k = k1
      · rw [if_pos h2] at h
        rcases List.mem_cons.1 h with rfl | h3
        · exact Or.inr rfl
        · exact Or.inl (List.mem_cons_of_mem _ h3)
      · rw [if_neg h2] at h
        rcases List.mem_cons.1 h with rfl | h3
        · exact Or.inl (List.mem_cons_self _ _)
        · rcases ih h3 with h4 | h4
          · exact Or.inl (List.mem_cons_of_mem _ h4)
          · exact Or.inr h4

theorem countKey_cons (k1 : Key) (v1 : Val) (S : Store) (k : Key) :
    countKey ((k1, v1) :: S) k = (if k1 = k then 1 else 0) + countKey S k := by
  by_cases h : k1 = k <;> simp [countKey, List.filter_cons, h] <;> omega

theorem countKey_eq_zero {S : Store} {k : Key} (h : ∀ kv ∈ S, kv.1 ≠ k) :
    countKey S k = 0 := by
  induction S with
  | nil => rfl
  | cons e rest ih =>
    rw [countKey_cons, if_neg (h e (List.mem_cons_self _ _)),
      ih (fun kv hkv => h kv (List.mem_cons_of_mem _ hkv))]

theorem countKey_zero_not_mem {S : Store} {k : Key} (h : countKey S k = 0) :
    ∀ kv ∈ S, kv.1 ≠ k := by
  induction S with
  | nil => intro kv hkv; simp at hkv
  | cons e rest ih =>
    rw [countKey_cons] at h
    intro kv hkv
    rcases List.mem_cons.1 hkv with rfl | h2
    · intro hc
      rw [if_pos hc] at h
      omega
    · refine ih ?_ kv h2
      omega

theorem countKey_filter (q : Key → Bool) (S : Store) (k : Key) :
    countKey (S.filter (fun kv => q kv.1)) k = if q k then countKey S k else 0 := by
  induction S with
  | nil => simp [countKey]
  | cons e rest ih =>
    obtain ⟨k1, v1⟩ := e
    by_cases hq : q k1
    · rw [List.filter_cons_of_pos (by simpa using hq)]
      by_cases hk : k1 = k
      · subst hk
        rw [countKey_cons, countKey_cons, if_pos rfl, ih]
        simp [hq]
      · rw [countKey_cons, countKey_cons, if_neg hk, ih]
        by_cases hqk : q k <;> simp [hqk]
    · rw [List.filter_cons_of_neg (by simpa using hq)]
      by_cases hk : k1 = k
      · subst hk
        rw [ih]
        simp [hq]
      · rw [ih]
        by_cases hqk : q k <;> simp [hqk, countKey_cons, hk]

theorem StoreSorted_sput {S : Store} {k : Key} {v : Val} (hs : StoreSorted S) :
    StoreSorted (sput S k v) := by
  induction S with
  | nil => simp [sput, StoreSorted]
  | cons e rest ih =>
    obtain ⟨k1, v1⟩ := e
    rw [StoreSorted, List.pairwise_cons] at hs
    obtain ⟨h1, h2⟩ := hs
    rw [sput]
    by_cases hlt : lexLtB k k1
    · rw [if_pos hlt]
      rw [StoreSorted, List.pairwise_cons]
      constructor
      · intro b hb
        rcases List.mem_cons.1 hb with rfl | hb2
        · exact hlt
        · exact lexLtB_trans hlt (h1 b hb2)
      · rw [List.pairwise_cons]
        exact ⟨h1, h2⟩
    · rw [if_neg hlt]
      by_cases heq : k = k1
      · rw [if_pos heq]
        subst heq
        rw [StoreSorted, List.pairwise_cons]
        exact ⟨h1, h2⟩
      · rw [if_neg heq]
        rw [StoreSorted, List.pairwise_cons]
        constructor
        · intro b hb
          rcases mem_sput hb with hb2 | rfl
          · exact h1 b hb2
          · rcases lexLtB_connex heq with hc | hc
            · exact absurd hc hlt
            · exact hc
        · exact ih h2

theorem sput_countKey_one {S : Store} {k : Key} {v : Val} (hs : StoreSorted S) :
    countKey (sput S k v) k = 1 := by
  induction S with
  | nil => simp [sput, countKey, List.filter]
  | cons e rest ih =>
    obtain ⟨k1, v1⟩ := e
    rw [StoreSorted, List.pairwise_cons] at hs
    obtain ⟨h1, h2⟩ := hs
    rw [sput]
    by_cases hlt : lexLtB k k1
    · rw [if_pos hlt, countKey_cons, if_pos rfl]
      rw [countKey_eq_zero]
      intro kv hkv
      rcases List.mem_cons.1 hkv with rfl | hkv2
      · exact fun hc => (lexLtB_ne hlt) hc.symm
      · exact fun hc => (lexLtB_ne (lexLtB_trans hlt (h1 kv hkv2))) hc.symm
    · rw [if_neg hlt]
      by_cases heq : k = k1
      · rw [if_pos heq, countKey_cons, if_pos rfl]
        subst heq
        rw [countKey_eq_zero]
        intro kv hkv
        exact fun hc => (lexLtB_ne (h1 kv hkv)) hc.symm
      · rw [if_neg heq, countKey_cons, if_neg (fun hc => heq hc.symm), ih h2]

/-- In a store holding the key exactly once, with its value found there,
where that value determines its key, the value occurs exactly once. -/
theorem filter_val_length_one {S : Store} {k : Key} {v : Val}
    (hct : countKey S k = 1) (hsf : sfind S k = some v)
    (hkey : ∀ kv ∈ S, kv.2 = v → kv.1 = k) :
    (S.filter (fun kv => decide (kv.2 = v))).length = 1 := by
  induction S with
  | nil => simp [countKey] at hct
  | cons e rest ih =>
    obtain ⟨k1, v1⟩ := e
    by_cases hk : k1 = k
    · subst hk
      rw [sfind, if_pos rfl, Option.some.injEq] at hsf
      subst hsf
      rw [countKey_cons, if_pos rfl] at hct
      have hz : countKey rest k1 = 0 := by omega
      rw [List.filter_cons_of_pos (by simp)]
      have hnil : rest.filter (fun kv => decide (kv.2 = v1)) = [] := by
        rw [List.filter_eq_nil]
        intro kv hkv
        simp only [decide_eq_true_eq]
        intro hv
        exact countKey_zero_not_mem hz kv hkv
          (hkey kv (List.mem_cons_of_mem _ hkv) hv)
      rw [hnil]
      rfl
    · rw [sfind, if_neg hk] at hsf
      rw [countKey_cons, if_neg hk] at hct
      rw [List.filter_cons_of_neg]
      · exact ih (by omega) hsf (fun kv hkv => hkey kv (List.mem_cons_of_mem _ hkv))
      · simp only [decide_eq_true_eq]
        intro hv1
        exact hk (hkey (k1, v1) (List.mem_cons_self _ _) hv1)

/-! ## Key shape lemmas for the commit path -/

theorem isPfx_iff_exists {p k : Key} : isPfx p k = true ↔ ∃ x, k = p ++ x := by
  induction p generalizing k with
  | nil =>
    simp [isPfx]
  | cons a as ih =>
    cases k with
    | nil => simp [isPfx]
    | cons b bs =>
      rw [isPfx, Bool.and_eq_true, beq_iff_eq]
      constructor
      · rintro ⟨rfl, h2⟩
        obtain ⟨x, rfl⟩ := ih.1 h2
        exact ⟨x, rfl⟩
      · rintro ⟨x, hx⟩
        rw [List.cons_append, List.cons.injEq] at hx
        obtain ⟨rfl, rfl⟩ := hx
        exact ⟨rfl, ih.2 ⟨x, rfl⟩⟩

theorem encode_meta_log_key_bytes (t l : Nat) :
    ∀ b ∈ encode_meta_log_key t l, b < 256 := by
  intro b hb
  rw [encode_meta_log_key] at hb
  rcases List.mem_append.1 hb with h | h
  · rcases List.mem_append.1 h with h2 | h2
    · rw [TABLET_META_LOG_PFX] at h2
      simp only [List.mem_cons, List.not_mem_nil, or_false] at h2
      omega
    · exact be64_bytes t b h2
  · exact be64_bytes l b h

theorem encode_meta_rowset_key_bytes (t r : Nat) :
    ∀ b ∈ encode_meta_rowset_key t r, b < 256 := by
  intro b hb
  rw [encode_meta_rowset_key] at hb
  rcases List.mem_append.1 hb with h | h
  · rcases List.mem_append.1 h with h2 | h2
    · rw [TABLET_META_ROWSET_PFX] at h2
      simp only [List.mem_cons, List.not_mem_nil, or_false] at h2
      omega
    · exact be64_bytes t b h2
  · exact be32_bytes r b h

theorem pending_key_ne_rowset_key (t1 v1 t2 r2 : Nat) :
    encode_meta_pending_rowset_key t1 v1 ≠ encode_meta_rowset_key t2 r2 := by
  intro h
  rw [encode_meta_pending_rowset_key, encode_meta_rowset_key,
    TABLET_META_PENDING_ROWSET_PFX, TABLET_META_ROWSET_PFX] at h
  simp [List.cons_append] at h

theorem pending_key_ne_log_key (t1 v1 t2 l2 : Nat) :
    encode_meta_pending_rowset_key t1 v1 ≠ encode_meta_log_key t2 l2 := by
  intro h
  rw [encode_meta_pending_rowset_key, encode_meta_log_key,
    TABLET_META_PENDING_ROWSET_PFX, TABLET_META_LOG_PFX] at h
  simp [List.cons_append] at h

theorem rowset_key_ne_log_key (t1 r1 t2 l2 : Nat) :
    encode_meta_rowset_key t1 r1 ≠ encode_meta_log_key t2 l2 := by
  intro h
  rw [encode_meta_rowset_key, encode_meta_log_key,
    TABLET_META_ROWSET_PFX, TABLET_META_LOG_PFX] at h
  simp [List.cons_append] at h

theorem isPfx_pending_of_log (t1 t2 l : Nat) :
    isPfx (TABLET_META_PENDING_ROWSET_PFX ++ be64 t1)
      (encode_meta_log_key t2 l) = false := by
  rw [TABLET_META_PENDING_ROWSET_PFX, encode_meta_log_key, TABLET_META_LOG_PFX]
  simp [List.cons_append, isPfx]

theorem isPfx_pending_of_rowset (t1 t2 r : Nat) :
    isPfx (TABLET_META_PENDING_ROWSET_PFX ++ be64 t1)
      (encode_meta_rowset_key t2 r) = false := by
  rw [TABLET_META_PENDING_ROWSET_PFX, encode_meta_rowset_key,
    TABLET_META_ROWSET_PFX]
  simp [List.cons_append, isPfx]

theorem isPfx_rowset_of_log (t1 t2 l : Nat) :
    isPfx (TABLET_META_ROWSET_PFX ++ be64 t1)
      (encode_meta_log_key t2 l) = false := by
  rw [TABLET_META_ROWSET_PFX, encode_meta_log_key, TABLET_META_LOG_PFX]
  simp [List.cons_append, isPfx]

/-! ## Claim C2 -/

/-- Every pair yielded by the pending-rowset scan comes from a visited
entry whose key decoded to that version. -/
theorem pri_scanFold_mem {es : List (Key × Val)} {acc : List (Nat × Val)}
    {x : Nat × Val}
    (hx : x ∈ scanFold (priVisit (fun _ _ => true)) es acc) :
    x ∈ acc ∨ ∃ kv ∈ es, ∃ tid, decode_meta_pending_rowset_key kv.1 =
      some (tid, x.1) ∧ kv.2 = x.2 := by
  induction es generalizing acc with
  | nil => exact Or.inl hx
  | cons kv rest ih =>
    rw [scanFold] at hx
    rcases hd : decode_meta_pending_rowset_key kv.1 with _ | p
    · simp only [priVisit, hd] at hx
      exact Or.inl hx
    · obtain ⟨tid, ver⟩ := p
      simp only [priVisit, hd, if_true] at hx
      rcases ih hx with h1 | ⟨kv2, hkv2, tid2, hd2, hv2⟩
      · rcases List.mem_append.1 h1 with h2 | h2
        · exact Or.inl h2
        · rw [List.mem_singleton] at h2
          subst h2
          exact Or.inr ⟨kv, List.mem_cons_self _ _, tid, by rw [hd], rfl⟩
      · exact Or.inr ⟨kv2, List.mem_cons_of_mem _ hkv2, tid2, hd2, hv2⟩

/-- Rowset scan with an always-continue callback over entries that all
parse: yields every parsed rowset meta in order, with no abort. -/
theorem ri_scanFold_all (es : List (Key × Val)) (acc : List RowsetMetaPB)
    (hes : ∀ kv ∈ es, (valRowset kv.2).isSome = true) :
    scanFold (riVisit (fun _ => true)) es (some acc) =
      some (acc ++ es.filterMap (fun kv => valRowset kv.2)) := by
  induction es generalizing acc with
  | nil => simp [scanFold]
  | cons kv rest ih =>
    have h1 := hes kv (List.mem_cons_self _ _)
    rcases hv : kv.2 with bytes | m | l | r
    · rw [hv] at h1; simp [valRowset] at h1
    · rw [hv] at h1; simp [valRowset] at h1
    · rw [hv] at h1; simp [valRowset] at h1
    · rw [scanFold]
      simp only [riVisit, hv, if_true]
      rw [ih (acc ++ [r]) (fun kv hkv => hes kv (List.mem_cons_of_mem _ hkv))]
      rw [List.filterMap_cons, hv]
      simp [valRowset]

/-- Multiplicity of one parsed rowset meta among the yielded list equals
the multiplicity of its serialized value among the entries. -/
theorem count_filterMap_rowset (es : List (Key × Val)) (r0 : RowsetMetaPB)
    (hes : ∀ kv ∈ es, (valRowset kv.2).isSome = true) :
    (es.filterMap (fun kv => valRowset kv.2)).count r0 =
      (es.filter (fun kv => decide (kv.2 = Val.rowsetVal r0))).length := by
  induction es with
  | nil => rfl
  | cons kv rest ih =>
    have h1 := hes kv (List.mem_cons_self _ _)
    have ih2 := ih (fun kv hkv => hes kv (List.mem_cons_of_mem _ hkv))
    rcases hv : kv.2 with bytes | m | l | r
    · rw [hv] at h1; simp [valRowset] at h1
    · rw [hv] at h1; simp [valRowset] at h1
    · rw [hv] at h1; simp [valRowset] at h1
    · have hstep : (kv :: rest).filterMap (fun kv => valRowset kv.2) =
          r :: rest.filterMap (fun kv => valRowset kv.2) := by
        rw [List.filterMap_cons, hv]
        rfl
      rw [hstep]
      by_cases hr : r = r0
      · subst hr
        simp [List.filter_cons, hv, List.count_cons, ih2]
      · simp [List.filter_cons, hv, hr, Ne.symm hr, List.count_cons, ih2]

/-- Claim C2: `rowset_commit` stages exactly (a) the rowset-commit log
entry carrying the edit-version descriptor, (b) the rowset record,
(c) the delete of `rowset_meta_key` if and only if it is non-empty, and
(d) the delete of the pending-rowset record at the edit version's major
component — all in one batch, committed atomically.  Afterwards the
pending record at the committed version is gone and never yielded by
`pending_rowset_iterate`, and `rowset_iterate` yields the committed
rowset exactly once. -/
theorem rowset_commit_effects (S : Store) (t logid : Nat)
    (edit : EditVersionMetaPB) (rowset : RowsetMetaPB) (rmk : Key)
    (hsort : StoreSorted S) (hbytes : StoreBytes S)
    (hcoh : ∀ kv ∈ S, isPfx (TABLET_META_ROWSET_PFX ++ be64 t) kv.1 = true →
      (valRowset kv.2).map (fun r => encode_meta_rowset_key t r.rowset_seg_id) =
        some kv.1)
    (hrmk : rmk ≠ encode_meta_rowset_key t rowset.rowset_seg_id) :
    (rmk = [] → rowset_commit_batch t logid edit rowset rmk =
      [BatchOp.put (encode_meta_log_key t logid)
          (Val.logVal ⟨[⟨TabletMetaOpType.opRowsetCommit, some edit, none⟩]⟩),
        BatchOp.put (encode_meta_rowset_key t rowset.rowset_seg_id)
          (Val.rowsetVal rowset),
        BatchOp.del (encode_meta_pending_rowset_key t edit.version.major)]) ∧
    (rmk ≠ [] → rowset_commit_batch t logid edit rowset rmk =
      [BatchOp.put (encode_meta_log_key t logid)
          (Val.logVal ⟨[⟨TabletMetaOpType.opRowsetCommit, some edit, none⟩]⟩),
        BatchOp.put (encode_meta_rowset_key t rowset.rowset_seg_id)
          (Val.rowsetVal rowset),
        BatchOp.del rmk,
        BatchOp.del (encode_meta_pending_rowset_key t edit.version.major)]) ∧
    (rowset_commit S t logid edit rowset rmk).1 = Status.ok ∧
    sfind (rowset_commit S t logid edit rowset rmk).2
      (encode_meta_pending_rowset_key t edit.version.major) = none ∧
    (∀ w : Val, (edit.version.major, w) ∉
      (pending_rowset_iterate (rowset_commit S t logid edit rowset rmk).2 t
        (fun _ _ => true)).2) ∧
    sfind (rowset_commit S t logid edit rowset rmk).2
      (encode_meta_rowset_key t rowset.rowset_seg_id) =
      some (Val.rowsetVal rowset) ∧
    (∃ L, rowset_iterate (rowset_commit S t logid edit rowset rmk).2 t
        (fun _ => true) = some L ∧ L.count rowset = 1) := by
  have hS2 := StoreSorted_sput (S := S)
    (k := encode_meta_log_key t logid)
    (v := Val.logVal ⟨[⟨TabletMetaOpType.opRowsetCommit, some edit, none⟩]⟩) hsort
  have hS' : (rowset_commit S t logid edit rowset rmk).2 =
      eraseKey (encode_meta_pending_rowset_key t edit.version.major)
        ((if rmk = [] then id else eraseKey rmk)
          (sput (sput S (encode_meta_log_key t logid)
              (Val.logVal ⟨[⟨TabletMetaOpType.opRowsetCommit, some edit, none⟩]⟩))
            (encode_meta_rowset_key t rowset.rowset_seg_id)
            (Val.rowsetVal rowset))) := by
    rw [rowset_commit, rowset_commit_batch, delete_pending_rowset_op]
    by_cases h : rmk = []
    · rw [if_pos h, if_pos h]
      simp [applyBatch, applyOp]
    · rw [if_neg h, if_neg h]
      simp [applyBatch, applyOp]
  refine ⟨?_, ?_, rfl, ?_, ?_, ?_, ?_⟩
  · intro h
    rw [rowset_commit_batch, if_pos h]
    rfl
  · intro h
    rw [rowset_commit_batch, if_neg h]
    rfl
  · rw [hS', sfind_eraseKey, if_pos rfl]
  · intro w hwmem
    rw [pending_rowset_iterate] at hwmem
    rcases pri_scanFold_mem hwmem with h1 | ⟨kv, hkv, tid, hdec, _⟩
    · simp at h1
    · obtain ⟨hkvS, hpfx⟩ := mem_prefixEntries.1 hkv
      rw [hS'] at hkvS
      obtain ⟨hkvS2, hne_pend⟩ := mem_eraseKey.1 hkvS
      have hkvS2 : kv ∈ sput (sput S (encode_meta_log_key t logid)
          (Val.logVal ⟨[⟨TabletMetaOpType.opRowsetCommit, some edit, none⟩]⟩))
          (encode_meta_rowset_key t rowset.rowset_seg_id)
          (Val.rowsetVal rowset) := by
        by_cases h : rmk = []
        · rw [if_pos h] at hkvS2
          exact hkvS2
        · rw [if_neg h] at hkvS2
          exact (mem_eraseKey.1 hkvS2).1
      have hb : ∀ b ∈ kv.1, b < 256 := by
        rcases mem_sput hkvS2 with h2 | rfl
        · rcases mem_sput h2 with h3 | rfl
          · exact hbytes kv h3
          · exact encode_meta_log_key_bytes t logid
        · exact encode_meta_rowset_key_bytes t rowset.rowset_seg_id
      rw [decode_meta_pending_rowset_key] at hdec
      by_cases hlen : kv.1.length = 20
      · rw [if_pos hlen, Option.some.injEq, Prod.mk.injEq] at hdec
        obtain ⟨htid, hver⟩ := hdec
        obtain ⟨x, hx⟩ := isPfx_iff_exists.1 hpfx
        have hplen : (TABLET_META_PENDING_ROWSET_PFX ++ be64 t).length = 12 := by
          simp [TABLET_META_PENDING_ROWSET_PFX, be64_length]
        have hxlen : x.length = 8 := by
          have := congrArg List.length hx
          rw [List.length_append, hplen, hlen] at this
          omega
        have hxbytes : ∀ b ∈ x, b < 256 := fun b hb2 =>
          hb b (hx ▸ List.mem_append.2 (Or.inr hb2))
        have hdrop : kv.1.drop 12 = x := by
          rw [hx]
          exact drop_append_len hplen
        have hxval : x = be64 (edit.version.major) := by
          have h1 : be64 (beVal x) = x := be64_beVal hxlen hxbytes
          rw [hdrop] at hver
          rw [← h1, hver]
        exact hne_pend (by
          rw [hx, hxval, encode_meta_pending_rowset_key])
      · rw [if_neg hlen] at hdec
        exact absurd hdec (by simp)
  · rw [hS', sfind_eraseKey,
      if_neg (fun hc => pending_key_ne_rowset_key t edit.version.major t
        rowset.rowset_seg_id hc.symm)]
    by_cases h : rmk = []
    · rw [if_pos h]
      rw [show (id (sput (sput S (encode_meta_log_key t logid)
          (Val.logVal ⟨[⟨TabletMetaOpType.opRowsetCommit, some edit, none⟩]⟩))
          (encode_meta_rowset_key t rowset.rowset_seg_id)
          (Val.rowsetVal rowset)) : Store) = sput (sput S (encode_meta_log_key t logid)
          (Val.logVal ⟨[⟨TabletMetaOpType.opRowsetCommit, some edit, none⟩]⟩))
          (encode_meta_rowset_key t rowset.rowset_seg_id)
          (Val.rowsetVal rowset) from rfl]
      rw [sfind_sput, if_pos rfl]
    · rw [if_neg h, sfind_eraseKey, if_neg (fun hc => hrmk hc.symm)]
      rw [sfind_sput, if_pos rfl]
  · have hfind : sfind (rowset_commit S t logid edit rowset rmk).2
        (encode_meta_rowset_key t rowset.rowset_seg_id) =
        some (Val.rowsetVal rowset) := by
      rw [hS', sfind_eraseKey,
        if_neg (fun hc => pending_key_ne_rowset_key t edit.version.major t
          rowset.rowset_seg_id hc.symm)]
      by_cases h : rmk = []
      · rw [if_pos h]
        rw [show (id (sput (sput S (encode_meta_log_key t logid)
            (Val.logVal ⟨[⟨TabletMetaOpType.opRowsetCommit, some edit, none⟩]⟩))
            (encode_meta_rowset_key t rowset.rowset_seg_id)
            (Val.rowsetVal rowset)) : Store) = sput (sput S (encode_meta_log_key t logid)
            (Val.logVal ⟨[⟨TabletMetaOpType.opRowsetCommit, some edit, none⟩]⟩))
            (encode_meta_rowset_key t rowset.rowset_seg_id)
            (Val.rowsetVal rowset) from rfl]
        rw [sfind_sput, if_pos rfl]
      · rw [if_neg h, sfind_eraseKey, if_neg (fun hc => hrmk hc.symm)]
        rw [sfind_sput, if_pos rfl]
    have hcount : countKey (rowset_commit S t logid edit rowset rmk).2
        (encode_meta_rowset_key t rowset.rowset_seg_id) = 1 := by
      have hc2 : countKey (sput (sput S (encode_meta_log_key t logid)
          (Val.logVal ⟨[⟨TabletMetaOpType.opRowsetCommit, some edit, none⟩]⟩))
          (encode_meta_rowset_key t rowset.rowset_seg_id)
          (Val.rowsetVal rowset))
          (encode_meta_rowset_key t rowset.rowset_seg_id) = 1 :=
        sput_countKey_one hS2
      rw [hS', eraseKey,
        countKey_filter (fun x =>
          decide (x ≠ encode_meta_pending_rowset_key t edit.version.major))]
      rw [if_pos (by
        simp only [decide_eq_true_eq]
        exact fun hc => pending_key_ne_rowset_key t edit.version.major t
          rowset.rowset_seg_id hc.symm)]
      by_cases h : rmk = []
      · rw [if_pos h]
        exact hc2
      · rw [if_neg h, eraseKey, countKey_filter (fun x => decide (x ≠ rmk))]
        rw [if_pos (by
          simp only [decide_eq_true_eq]
          exact fun hc => hrmk hc.symm)]
        exact hc2
    have hcoh' : ∀ kv ∈ (rowset_commit S t logid edit rowset rmk).2,
        isPfx (TABLET_META_ROWSET_PFX ++ be64 t) kv.1 = true →
        (valRowset kv.2).map
          (fun r => encode_meta_rowset_key t r.rowset_seg_id) = some kv.1 := by
      intro kv hkv hpfx
      rw [hS'] at hkv
      have hkv2 := (mem_eraseKey.1 hkv).1
      have hkv3 : kv ∈ sput (sput S (encode_meta_log_key t logid)
          (Val.logVal ⟨[⟨TabletMetaOpType.opRowsetCommit, some edit, none⟩]⟩))
          (encode_meta_rowset_key t rowset.rowset_seg_id)
          (Val.rowsetVal rowset) := by
        by_cases h : rmk = []
        · rw [if_pos h] at hkv2
          exact hkv2
        · rw [if_neg h] at hkv2
          exact (mem_eraseKey.1 hkv2).1
      rcases mem_sput hkv3 with h2 | rfl
      · rcases mem_sput h2 with h3 | rfl
        · exact hcoh kv h3 hpfx
        · rw [isPfx_rowset_of_log] at hpfx
          exact absurd hpfx (by simp)
      · simp [valRowset]
    have hes_some : ∀ kv ∈ prefixEntries (TABLET_META_ROWSET_PFX ++ be64 t)
        (rowset_commit S t logid edit rowset rmk).2,
        (valRowset kv.2).isSome = true := by
      intro kv hkv
      obtain ⟨hkvS, hpfx⟩ := mem_prefixEntries.1 hkv
      have := hcoh' kv hkvS hpfx
      rcases hr : valRowset kv.2 with _ | r
      · rw [hr] at this
        simp at this
      · rfl
    have hpfx_rsk : isPfx (TABLET_META_ROWSET_PFX ++ be64 t)
        (encode_meta_rowset_key t rowset.rowset_seg_id) = true := by
      rw [show encode_meta_rowset_key t rowset.rowset_seg_id =
        (TABLET_META_ROWSET_PFX ++ be64 t) ++ be32 rowset.rowset_seg_id from rfl]
      exact isPfx_append_self _ _
    refine ⟨(prefixEntries (TABLET_META_ROWSET_PFX ++ be64 t)
        (rowset_commit S t logid edit rowset rmk).2).filterMap
        (fun kv => valRowset kv.2), ?_, ?_⟩
    · rw [rowset_iterate]
      rw [ri_scanFold_all _ [] hes_some]
      rw [List.nil_append]
    · rw [count_filterMap_rowset _ rowset hes_some]
      apply filter_val_length_one
      · rw [prefixEntries, countKey_filter, if_pos hpfx_rsk]
        exact hcount
      · rw [prefixEntries, sfind_filter, if_pos hpfx_rsk]
        exact hfind
      · intro kv hkv hval
        obtain ⟨hkvS, hpfx⟩ := mem_prefixEntries.1 hkv
        have := hcoh' kv hkvS hpfx
        rw [hval] at this
        exact (Option.some.inj this).symm

/-- Concrete run of `rowset_commit_effects`: committing rowset 7 at
version 5 on a store holding only the version-5 pending record removes
the pending record and installs the rowset record. -/
theorem rowset_commit_effects_witness :
    sfind (rowset_commit [(encode_meta_pending_rowset_key 1 5, Val.blob [2])]
        1 3 ⟨⟨5, 0⟩⟩ ⟨7, []⟩ []).2 (encode_meta_pending_rowset_key 1 5) = none ∧
    sfind (rowset_commit [(encode_meta_pending_rowset_key 1 5, Val.blob [2])]
        1 3 ⟨⟨5, 0⟩⟩ ⟨7, []⟩ []).2 (encode_meta_rowset_key 1 7) =
      some (Val.rowsetVal ⟨7, []⟩) :=
  ⟨(rowset_commit_effects [(encode_meta_pending_rowset_key 1 5, Val.blob [2])]
      1 3 ⟨⟨5, 0⟩⟩ ⟨7, []⟩ [] (by unfold StoreSorted; decide)
      (by unfold StoreBytes; decide) (by decide)
      (by decide)).2.2.2.1,
   (rowset_commit_effects [(encode_meta_pending_rowset_key 1 5, Val.blob [2])]
      1 3 ⟨⟨5, 0⟩⟩ ⟨7, []⟩ [] (by unfold StoreSorted; decide)
      (by unfold StoreBytes; decide) (by decide)
      (by decide)).2.2.2.2.2.1⟩

end TabletMeta
